/-
Verification of the polynomial approximation core of Effective-Quadratures
(`effective_quadratures/polynomial.py`).

The Python source is shallowly embedded over exact rational arithmetic:
numpy arrays become `List ℚ` / `List (List ℚ)`, multi-indices become
`List ℕ`, and code that can raise returns `Option`.  External collaborators
(the `Parameter` class, the `IndexSet` class and the `utils` module) are not
part of the verified source file; they enter either as abstract function
fields of the `Parameter` structure or as definitions modelled from the
specification (each such definition is marked in its doc comment).
-/
import Mathlib

namespace EffectiveQuadratures

/-! ## Basic matrix / vector operations (rational arithmetic) -/

/-- Dot product of two rational vectors (entrywise product, then sum). -/
def dot (a b : List ℚ) : ℚ :=
  ((a.zip b).map (fun p => p.1 * p.2)).sum

/-- Matrix–vector product: one dot product per matrix row. -/
def matVec (A : List (List ℚ)) (v : List ℚ) : List ℚ :=
  A.map (fun row => dot row v)

/-- Kronecker product of two row vectors (`np.kron` on 1-D arrays). -/
def kronVec (a b : List ℚ) : List ℚ :=
  a.flatMap (fun x => b.map (fun y => x * y))

/-- Kronecker product of two matrices given as lists of rows. -/
def kronMat (A B : List (List ℚ)) : List (List ℚ) :=
  A.flatMap (fun ar => B.map (fun br => kronVec ar br))

/-- `Q[0] ⊗ Q[1] ⊗ … ⊗ Q[N-1]` (right-associated; `⊗` is associative). -/
def kronMatList (Q : List (List (List ℚ))) : List (List ℚ) :=
  Q.foldr kronMat [[1]]

/-- Entrywise product of two rows of equal length. -/
def elemMul (a b : List ℚ) : List ℚ :=
  List.zipWith (fun x y => x * y) a b

/-! ## The data model

`Parameter` and `IndexSet` are external collaborators (spec §3, §6): only
the interface the core consumes is modelled.  A `Parameter` carries its
scalar attributes and, as abstract function fields, the three collaborator
operations of spec §6: the univariate quadrature rule, the Jacobi/recurrence
eigenvector matrix, and the orthonormal polynomial values/derivatives
(the latter modelled pointwise: degree then evaluation point). -/

structure Parameter where
  order : ℕ
  param_type : String
  lower : ℚ
  upper : ℚ
  derivative_flag : ℕ
  getLocalQuadrature : ℕ → List ℚ × List ℚ
  getJacobiEigenvectors : ℕ → List (List ℚ)
  orthoValue : ℕ → ℚ → ℚ
  orthoDeriv : ℕ → ℚ → ℚ

instance : Inhabited Parameter :=
  ⟨{ order := 0, param_type := "", lower := 0, upper := 0, derivative_flag := 0,
     getLocalQuadrature := fun _ => ([], []),
     getJacobiEigenvectors := fun _ => [],
     orthoValue := fun _ _ => 0, orthoDeriv := fun _ _ => 0 }⟩

/-- Modelled from the spec: `Parameter.orthonormal_polynomials(points,
max_degree)` (spec §6) returns the matrix of univariate orthonormal
polynomial values (row = degree `0 … max_degree - 1`, column = point) and
the matching matrix of derivatives. -/
def getOrthoPoly (prm : Parameter) (pts : List ℚ) (maxdeg : ℕ) :
    List (List ℚ) × List (List ℚ) :=
  ((List.range maxdeg).map (fun deg => pts.map (fun x => prm.orthoValue deg x)),
   (List.range maxdeg).map (fun deg => pts.map (fun x => prm.orthoDeriv deg x)))

/-- Modelled from the spec: the external `IndexSet` collaborator (spec §6).
`index_set_type` is its `kind`; for a sparse grid, `enumerate()` returns the
component order vectors and the integer combination weights (stored as
rationals, as the source keeps them in a float array); `elements` is the
realized multi-index matrix returned for the other kinds (and as the third
component of the sparse triple). -/
structure IndexSetModel where
  index_set_type : String
  sparse_indices : List (List ℕ)
  sparse_factors : List ℚ
  elements : List (List ℕ)

/-- The core aggregate: a list of Parameters plus one IndexSet (spec §3). -/
structure Polynomial where
  uq_parameters : List Parameter
  index_sets : IndexSetModel

/-- Modelled from the spec: `IndexSet('Tensor grid', orders)` enumerates the
full Cartesian product of per-dimension degrees `0 … orders[k]` (spec §3,
glossary), first dimension varying slowest (row-major). -/
def tensorGridIndexSet (orders : List ℕ) : List (List ℕ) :=
  orders.foldr (fun o acc => (List.range (o + 1)).flatMap (fun i => acc.map (fun r => i :: r))) [[]]

/-! ## 4.1 QuadratureAssembler: `getPointsAndWeights` -/

/-- Per-dimension rescaling of raw quadrature nodes (`polynomial.py`
lines 121–131): affine map for `"Uniform"`, a different affine map for
`"Beta"`, no scaling for `"Gaussian"`, and any other kind passed through. -/
def rescalePoint (prm : Parameter) (x : ℚ) : ℚ :=
  if prm.param_type = "Uniform" then
    (1/2) * (x + 1) * (prm.upper - prm.lower) + prm.lower
  else if prm.param_type = "Beta" then
    x * (prm.upper - prm.lower) + prm.lower
  else if prm.param_type = "Gaussian" then
    x
  else
    x

/-- One dimension of the tensor-grid construction (`polynomial.py`
lines 102–115): `np.kron(pp, ones) | np.kron(ones, local_points)` replicates
every existing row once per new local point and appends that point, and the
weight vector becomes `np.kron(ww, local_weights)`. -/
def pwStep (acc : List (List ℚ) × List ℚ) (pr : Parameter × ℕ) :
    List (List ℚ) × List ℚ :=
  let lp := (pr.1.getLocalQuadrature pr.2).1
  let lw := (pr.1.getLocalQuadrature pr.2).2
  (acc.1.flatMap (fun row => lp.map (fun x => row ++ [x])),
   acc.2.flatMap (fun w => lw.map (fun x => w * x)))

/-- The per-dimension orders actually used: the stored Parameter orders, or
the caller's override (`polynomial.py` lines 89–94, also lines 299–313). -/
def effectiveOrders (poly : Polynomial) (override_orders : Option (List ℕ)) : List ℕ :=
  match override_orders with
  | none => poly.uq_parameters.map (fun prm => prm.order)
  | some os => os

/-- `Polynomial.getPointsAndWeights` (`polynomial.py` lines 64–134).
The running point matrix `pp` starts as the single row `[1]`; each dimension
is folded in with `pwStep`; afterwards the first (dummy) column is dropped
and points are rescaled per dimension. -/
def getPointsAndWeights (poly : Polynomial) (override_orders : Option (List ℕ)) :
    List (List ℚ) × List ℚ :=
  let stackOfParameters := poly.uq_parameters
  let orders := effectiveOrders poly override_orders
  let pw := (stackOfParameters.zip orders).foldl pwStep ([[1]], [1])
  let points := pw.1.map (fun row => row.drop 1)
  let rescaled := points.map (fun row =>
    (stackOfParameters.zip row).map (fun pr => rescalePoint pr.1 pr.2))
  (rescaled, pw.2)

/-! ### Shape of the assembled quadrature (claim C6) -/

theorem length_flatMap_const {α β : Type} (l : List α) (f : α → List β) (k : ℕ)
    (h : ∀ a ∈ l, (f a).length = k) : (l.flatMap f).length = l.length * k := by
  induction l with
  | nil => simp
  | cons hd tl ih =>
      have : ∀ a ∈ tl, (f a).length = k := fun a ha => h a (by simp [ha])
      simp [List.flatMap_cons, h hd (by simp), ih this, Nat.succ_mul, Nat.add_comm]

theorem pw_fold_spec (l : List (Parameter × ℕ))
    (hq : ∀ pr ∈ l, ((pr.1.getLocalQuadrature pr.2).1.length = pr.2 ∧
                     (pr.1.getLocalQuadrature pr.2).2.length = pr.2)) :
    ∀ (pp : List (List ℚ)) (ww : List ℚ) (c : ℕ), (∀ r ∈ pp, r.length = c) →
      (l.foldl pwStep (pp, ww)).1.length = pp.length * (l.map (fun pr => pr.2)).prod ∧
      (∀ r ∈ (l.foldl pwStep (pp, ww)).1, r.length = c + l.length) ∧
      (l.foldl pwStep (pp, ww)).2.length = ww.length * (l.map (fun pr => pr.2)).prod := by
  induction l with
  | nil =>
      intro pp ww c hpp
      exact ⟨by simp, by simpa using hpp, by simp⟩
  | cons hd tl ih =>
      intro pp ww c hpp
      have hhd := hq hd (by simp)
      have htl : ∀ pr ∈ tl, ((pr.1.getLocalQuadrature pr.2).1.length = pr.2 ∧
          (pr.1.getLocalQuadrature pr.2).2.length = pr.2) := by
        intro pr hpr; exact hq pr (by simp [hpr])
      have hrows : ∀ r ∈ (pwStep (pp, ww) hd).1, r.length = c + 1 := by
        intro r hr
        rcases List.mem_flatMap.mp hr with ⟨row, hrow, hmem⟩
        rcases List.mem_map.mp hmem with ⟨x, _, rfl⟩
        simp [hpp row hrow]
      have hlen1 : (pwStep (pp, ww) hd).1.length = pp.length * hd.2 := by
        simpa [pwStep, hhd.1] using
          length_flatMap_const pp
            (fun row => ((hd.1.getLocalQuadrature hd.2).1).map (fun x => row ++ [x])) hd.2
            (fun row _ => by simp [hhd.1])
      have hlen2 : (pwStep (pp, ww) hd).2.length = ww.length * hd.2 := by
        simpa [pwStep, hhd.2] using
          length_flatMap_const ww
            (fun w => ((hd.1.getLocalQuadrature hd.2).2).map (fun x => w * x)) hd.2
            (fun w _ => by simp [hhd.2])
      rcases ih htl (pwStep (pp, ww) hd).1 (pwStep (pp, ww) hd).2 (c + 1) hrows with ⟨h1, h2, h3⟩
      refine ⟨?_, ?_, ?_⟩
      · rw [List.foldl_cons, h1, hlen1]
        simp [Nat.mul_assoc]
      · intro r hr
        have := h2 r (by simpa [List.foldl_cons] using hr)
        simpa [Nat.add_assoc, Nat.add_comm, Nat.add_left_comm] using this
      · rw [List.foldl_cons, h3, hlen2]
        simp [Nat.mul_assoc]

/-- C6: for every list of `d` Parameters whose (stored or overridden) orders
are `o1..od`, each supplying a 1-D quadrature rule of `order` nodes and
weights, `getPointsAndWeights` returns a point matrix with exactly `Π oi`
rows and `d` columns and a weight vector with exactly `Π oi` entries. -/
theorem getPointsAndWeights_shape (poly : Polynomial) (override_orders : Option (List ℕ))
    (hlen : (effectiveOrders poly override_orders).length = poly.uq_parameters.length)
    (hq : ∀ pr ∈ poly.uq_parameters.zip (effectiveOrders poly override_orders),
      ((pr.1.getLocalQuadrature pr.2).1.length = pr.2 ∧
       (pr.1.getLocalQuadrature pr.2).2.length = pr.2)) :
    (getPointsAndWeights poly override_orders).1.length =
      (effectiveOrders poly override_orders).prod ∧
    (∀ r ∈ (getPointsAndWeights poly override_orders).1,
      r.length = poly.uq_parameters.length) ∧
    (getPointsAndWeights poly override_orders).2.length =
      (effectiveOrders poly override_orders).prod := by
  have hzlen : (poly.uq_parameters.zip (effectiveOrders poly override_orders)).length =
      poly.uq_parameters.length := by
    simp [List.length_zip, hlen]
  have hmap : ((poly.uq_parameters.zip (effectiveOrders poly override_orders)).map
      (fun pr => pr.2)) = effectiveOrders poly override_orders := by
    simpa using List.map_snd_zip poly.uq_parameters (effectiveOrders poly override_orders)
      (le_of_eq hlen)
  rcases pw_fold_spec (poly.uq_parameters.zip (effectiveOrders poly override_orders)) hq
      [[1]] [1] 1 (by simp) with ⟨h1, h2, h3⟩
  refine ⟨?_, ?_, ?_⟩
  · simpa [getPointsAndWeights, hmap] using h1
  · intro r hr
    simp only [getPointsAndWeights] at hr
    rcases List.mem_map.mp hr with ⟨row0, hrow0, rfl⟩
    rcases List.mem_map.mp hrow0 with ⟨row, hrow, rfl⟩
    have hrl := h2 row hrow
    rw [hzlen] at hrl
    simp only [List.length_map, List.length_zip, List.length_drop]
    omega
  · simpa [getPointsAndWeights, hmap] using h3

/-- A concrete Parameter used by witnesses: its quadrature rule honors the
length contract and its collaborators are simple computable functions. -/
def testParam (o : ℕ) (ptype : String) (flag : ℕ) : Parameter :=
  { order := o, param_type := ptype, lower := -1, upper := 1,
    derivative_flag := flag,
    getLocalQuadrature := fun k => ((List.range k).map (fun i => (i : ℚ)),
      (List.range k).map (fun _ => (1 : ℚ))),
    getJacobiEigenvectors := fun k =>
      (List.range k).map (fun i => (List.range k).map (fun j => if i = j then 1 else 0)),
    orthoValue := fun deg x => x ^ deg,
    orthoDeriv := fun deg x => (deg : ℚ) * x ^ (deg - 1) }

/-- A concrete tensor-grid Polynomial in two dimensions (orders 2 and 3). -/
def testPoly2 : Polynomial :=
  { uq_parameters := [testParam 2 "Uniform" 0, testParam 3 "Gaussian" 0],
    index_sets := { index_set_type := "Tensor grid", sparse_indices := [],
                    sparse_factors := [], elements := [] } }

/-- Witness for C6: the two-dimensional instance with orders 2 and 3 yields
a 6-row point matrix. -/
theorem getPointsAndWeights_shape_witness :
    (getPointsAndWeights testPoly2 none).1.length = 6 := by
  have h := getPointsAndWeights_shape testPoly2 none (by decide) (by decide)
  rw [h.1]
  decide

/-! ## 4.2 MultivariateBasisEvaluator: `getMultivariatePolynomial` -/

/-- The dynamic second return value of `getMultivariatePolynomial`:
the sentinel `np.mat([0])` when no derivatives are requested, the single
derivative matrix in the univariate case, or the per-dimension dictionary
`C_all` (here an ordered list over dimensions) in the multivariate case. -/
inductive DerivResult where
  | empty : DerivResult
  | single : List (List ℚ) → DerivResult
  | perDim : List (List (List ℚ)) → DerivResult
deriving DecidableEq

/-- `int(np.max(index_set[:,i] + 1))` (`polynomial.py` line 188): one more
than the largest degree appearing in column `i` of the index set. -/
def maxDegree (index_set : List (List ℕ)) (i : ℕ) : ℕ :=
  ((index_set.map (fun r => r.getD i 0)).foldr max 0) + 1

/-- `p[k]` of `polynomial.py` line 188: univariate orthonormal values in
dimension `k`, at the `k`-th coordinates, up to the column maximum degree. -/
def pMat (params : List Parameter) (stackOfPoints : List (List ℚ))
    (index_set : List (List ℕ)) (k : ℕ) : List (List ℚ) :=
  (getOrthoPoly (params.getD k default)
    (stackOfPoints.map (fun r => r.getD k 0)) (maxDegree index_set k)).1

/-- `d[k]` of `polynomial.py` line 188: the matching derivative matrices. -/
def dMat (params : List Parameter) (stackOfPoints : List (List ℚ))
    (index_set : List (List ℕ)) (k : ℕ) : List (List ℚ) :=
  (getOrthoPoly (params.getD k default)
    (stackOfPoints.map (fun r => r.getD k 0)) (maxDegree index_set k)).2

/-- The polynomial-value loop of `polynomial.py` lines 195–200: basis row
`i` is the running entrywise product (`temp`) over all dimensions of the
univariate value row at degree `index_set[i,k]`. -/
def polyPart (params : List Parameter) (stackOfPoints : List (List ℚ))
    (index_set : List (List ℕ)) : List (List ℚ) :=
  (List.range index_set.length).map (fun i =>
    (List.range params.length).foldl
      (fun temp k =>
        elemMul ((pMat params stackOfPoints index_set k).getD
          ((index_set.getD i []).getD k 0) []) temp)
      (List.replicate stackOfPoints.length 1))

/-- The derivative loop of `polynomial.py` lines 202–230 (`C_all`): for each
dimension `j`, row `i` is the dimension-`j` derivative row at degree
`index_set[i,j]` times the running product `P_others` of value rows over
`remaining_dimensions = np.delete(arange(dimensions), j)`.  (The source's
dead `len(remaining_dimensions) == 0` branch sits inside the loop over
those dimensions and can never execute.) -/
def derivPart (params : List Parameter) (stackOfPoints : List (List ℚ))
    (index_set : List (List ℕ)) : List (List (List ℚ)) :=
  (List.range params.length).map (fun j =>
    (List.range index_set.length).map (fun i =>
      let remaining_dimensions := (List.range params.length).filter (fun k => k ≠ j)
      let P_others := remaining_dimensions.foldl
        (fun temp entry =>
          elemMul ((pMat params stackOfPoints index_set entry).getD
            ((index_set.getD i []).getD entry 0) []) temp)
        (List.replicate stackOfPoints.length 1)
      elemMul ((dMat params stackOfPoints index_set j).getD
        ((index_set.getD i []).getD j 0) []) P_others))

/-- `Polynomial.getMultivariatePolynomial` (`polynomial.py` lines 136–233).
For one dimension the call delegates to the Parameter's evaluator (the
single-argument `getOrthoPoly` call is embedded at the parameter's stored
order).  Otherwise per-dimension value/derivative matrices are built up to
`maxDegree` and combined: the running `temp` product over dimensions is the
`foldl` of entrywise row products, exactly as the source's `temp` variable;
the derivative loop multiplies the dimension-`j` derivative row with the
product of value rows over `remaining_dimensions` (`np.delete(arange, j)`).
An empty parameter list would raise in the source (`stackOfParameters[0]`);
here list lookups use defaults, so theorems restrict to nonempty inputs. -/
def getMultivariatePolynomial (poly : Polynomial) (stackOfPoints : List (List ℚ))
    (indexsets : Option (List (List ℕ))) : List (List ℚ) × DerivResult :=
  let stackOfParameters := poly.uq_parameters
  let index_set := match indexsets with
    | none => poly.index_sets.elements
    | some iset => iset
  let dimensions := stackOfParameters.length
  if dimensions = 1 ∧ (stackOfParameters.getD 0 default).derivative_flag = 0 then
    ((getOrthoPoly (stackOfParameters.getD 0 default)
        (stackOfPoints.map (fun r => r.getD 0 0))
        (stackOfParameters.getD 0 default).order).1,
     DerivResult.empty)
  else if dimensions = 1 ∧ (stackOfParameters.getD 0 default).derivative_flag = 1 then
    ((getOrthoPoly (stackOfParameters.getD 0 default)
        (stackOfPoints.map (fun r => r.getD 0 0))
        (stackOfParameters.getD 0 default).order).1,
     DerivResult.single (getOrthoPoly (stackOfParameters.getD 0 default)
        (stackOfPoints.map (fun r => r.getD 0 0))
        (stackOfParameters.getD 0 default).order).2)
  else
    if (stackOfParameters.getD 0 default).derivative_flag = 1 then
      (polyPart stackOfParameters stackOfPoints index_set,
       DerivResult.perDim (derivPart stackOfParameters stackOfPoints index_set))
    else
      (polyPart stackOfParameters stackOfPoints index_set, DerivResult.empty)

/-! ### Helper lemmas for entrywise products -/

theorem getD_map_lt {α β : Type} (l : List α) (f : α → β) (t : ℕ)
    (h : t < l.length) (d : α) (e : β) :
    (l.map f).getD t e = f (l.getD t d) := by
  rw [List.getD_eq_getElem _ _ (by simpa using h), List.getD_eq_getElem _ _ h]
  simp

theorem elemMul_getD (a b : List ℚ) (t : ℕ) (ha : t < a.length) (hb : t < b.length) :
    (elemMul a b).getD t 0 = a.getD t 0 * b.getD t 0 := by
  have hlen : t < (elemMul a b).length := by
    simp [elemMul, List.length_zipWith]; omega
  rw [List.getD_eq_getElem _ _ hlen, List.getD_eq_getElem _ _ ha,
      List.getD_eq_getElem _ _ hb]
  simp [elemMul]

theorem elemMul_length (a b : List ℚ) : (elemMul a b).length = min a.length b.length := by
  simp [elemMul, List.length_zipWith]

theorem foldl_elemMul_spec (f : ℕ → List ℚ) (m : ℕ) :
    ∀ (ks : List ℕ), (∀ k ∈ ks, (f k).length = m) →
    ∀ (start : List ℚ), start.length = m →
      ((ks.foldl (fun temp k => elemMul (f k) temp) start).length = m ∧
       ∀ t < m, (ks.foldl (fun temp k => elemMul (f k) temp) start).getD t 0 =
         (ks.map (fun k => (f k).getD t 0)).prod * start.getD t 0) := by
  intro ks
  induction ks with
  | nil =>
      intro _ start hs
      exact ⟨hs, fun t _ => by simp⟩
  | cons hd tl ih =>
      intro hks start hs
      have hhd : (f hd).length = m := hks hd (by simp)
      have htl : ∀ k ∈ tl, (f k).length = m := fun k hk => hks k (by simp [hk])
      have hlen : (elemMul (f hd) start).length = m := by
        rw [elemMul_length, hhd, hs]; simp
      rcases ih htl (elemMul (f hd) start) hlen with ⟨h1, h2⟩
      refine ⟨by simpa using h1, ?_⟩
      intro t ht
      have := h2 t ht
      rw [List.foldl_cons]
      rw [this, elemMul_getD (f hd) start t (by omega) (by omega)]
      simp [List.prod_cons]
      ring

theorem le_foldr_max (l : List ℕ) : ∀ x ∈ l, x ≤ l.foldr max 0 := by
  induction l with
  | nil => intro x hx; cases hx
  | cons hd tl ih =>
      intro x hx
      rcases List.mem_cons.mp hx with rfl | hx
      · simp [List.foldr_cons]
      · exact le_trans (ih x hx) (by simp [List.foldr_cons])

/-- The degree looked up in dimension `k` of row `i` is within `maxDegree`. -/
theorem deg_lt_maxDegree (iset : List (List ℕ)) (i k : ℕ) (hi : i < iset.length) :
    (iset.getD i []).getD k 0 < maxDegree iset k := by
  have hmem : (iset.getD i []).getD k 0 ∈ iset.map (fun r => r.getD k 0) := by
    rw [List.getD_eq_getElem _ _ hi]
    exact List.mem_map.mpr ⟨iset[i], List.getElem_mem _, rfl⟩
  have := le_foldr_max (iset.map (fun r => r.getD k 0)) _ hmem
  simp only [maxDegree]
  omega

/-- Row `deg` of the univariate value matrix, for `deg` within range. -/
theorem getOrthoPoly_value_row (prm : Parameter) (pts : List ℚ) (maxdeg deg : ℕ)
    (h : deg < maxdeg) :
    ((getOrthoPoly prm pts maxdeg).1).getD deg [] =
      pts.map (fun x => prm.orthoValue deg x) := by
  simp only [getOrthoPoly]
  rw [List.getD_eq_getElem _ _ (by simpa using h)]
  simp

/-- Row `deg` of the univariate derivative matrix, for `deg` within range. -/
theorem getOrthoPoly_deriv_row (prm : Parameter) (pts : List ℚ) (maxdeg deg : ℕ)
    (h : deg < maxdeg) :
    ((getOrthoPoly prm pts maxdeg).2).getD deg [] =
      pts.map (fun x => prm.orthoDeriv deg x) := by
  simp only [getOrthoPoly]
  rw [List.getD_eq_getElem _ _ (by simpa using h)]
  simp

/-- The degree-selected row of `pMat` is the value row over the points. -/
theorem pMat_row (params : List Parameter) (pts : List (List ℚ))
    (iset : List (List ℕ)) (k i : ℕ) (hi : i < iset.length) :
    (pMat params pts iset k).getD ((iset.getD i []).getD k 0) [] =
      pts.map (fun r => (params.getD k default).orthoValue
        ((iset.getD i []).getD k 0) (r.getD k 0)) := by
  rw [pMat, getOrthoPoly_value_row _ _ _ _ (deg_lt_maxDegree iset i k hi)]
  simp [List.map_map, Function.comp]

/-- The degree-selected row of `dMat` is the derivative row over the points. -/
theorem dMat_row (params : List Parameter) (pts : List (List ℚ))
    (iset : List (List ℕ)) (k i : ℕ) (hi : i < iset.length) :
    (dMat params pts iset k).getD ((iset.getD i []).getD k 0) [] =
      pts.map (fun r => (params.getD k default).orthoDeriv
        ((iset.getD i []).getD k 0) (r.getD k 0)) := by
  rw [dMat, getOrthoPoly_deriv_row _ _ _ _ (deg_lt_maxDegree iset i k hi)]
  simp [List.map_map, Function.comp]

/-- Length of the running product fold used for basis rows. -/
theorem prodFold_length (params : List Parameter) (pts : List (List ℚ))
    (iset : List (List ℕ)) (ks : List ℕ) (i : ℕ) (hi : i < iset.length) :
    (ks.foldl (fun temp k =>
        elemMul ((pMat params pts iset k).getD ((iset.getD i []).getD k 0) []) temp)
      (List.replicate pts.length 1)).length = pts.length := by
  refine (foldl_elemMul_spec
    (fun k => (pMat params pts iset k).getD ((iset.getD i []).getD k 0) [])
    pts.length ks ?_ (List.replicate pts.length 1) (by simp)).1
  intro k _
  show ((pMat params pts iset k).getD ((iset.getD i []).getD k 0) []).length = pts.length
  rw [pMat_row params pts iset k i hi]
  simp

/-- Entry `t` of the running product fold is the product of univariate
values over the processed dimensions. -/
theorem prodFold_getD (params : List Parameter) (pts : List (List ℚ))
    (iset : List (List ℕ)) (ks : List ℕ) (i t : ℕ)
    (hi : i < iset.length) (ht : t < pts.length) :
    (ks.foldl (fun temp k =>
        elemMul ((pMat params pts iset k).getD ((iset.getD i []).getD k 0) []) temp)
      (List.replicate pts.length 1)).getD t 0 =
    (ks.map (fun k => (params.getD k default).orthoValue
        ((iset.getD i []).getD k 0) ((pts.getD t []).getD k 0))).prod := by
  have hf : ∀ k ∈ ks,
      ((pMat params pts iset k).getD ((iset.getD i []).getD k 0) []).length = pts.length := by
    intro k _
    rw [pMat_row params pts iset k i hi]
    simp
  rcases foldl_elemMul_spec
    (fun k => (pMat params pts iset k).getD ((iset.getD i []).getD k 0) [])
    pts.length ks hf (List.replicate pts.length 1) (by simp) with ⟨_, h2⟩
  rw [h2 t ht]
  have hstart : (List.replicate pts.length (1 : ℚ)).getD t 0 = 1 := by
    rw [List.getD_eq_getElem _ _ (by simpa using ht)]
    simp
  rw [hstart, mul_one]
  apply congrArg List.prod
  apply List.map_congr_left
  intro k _
  rw [pMat_row params pts iset k i hi]
  exact getD_map_lt pts _ t ht [] 0

theorem range_map_getD {α : Type} (n i : ℕ) (f : ℕ → α) (d : α) (h : i < n) :
    ((List.range n).map f).getD i d = f i := by
  rw [List.getD_eq_getElem _ _ (by simpa using h)]
  simp

/-- In the genuinely multivariate case (`d ≥ 2`) the evaluator returns the
basis-value matrix and, exactly when the first Parameter's flag is set, the
per-dimension derivative structure. -/
theorem getMultivariatePolynomial_of_multi (poly : Polynomial) (pts : List (List ℚ))
    (iset : List (List ℕ)) (hd : 2 ≤ poly.uq_parameters.length) :
    getMultivariatePolynomial poly pts (some iset) =
      (polyPart poly.uq_parameters pts iset,
       if (poly.uq_parameters.getD 0 default).derivative_flag = 1 then
         DerivResult.perDim (derivPart poly.uq_parameters pts iset)
       else DerivResult.empty) := by
  have h1 : ¬(poly.uq_parameters.length = 1 ∧
      (poly.uq_parameters.getD 0 default).derivative_flag = 0) := by
    rintro ⟨h, _⟩; omega
  have h2 : ¬(poly.uq_parameters.length = 1 ∧
      (poly.uq_parameters.getD 0 default).derivative_flag = 1) := by
    rintro ⟨h, _⟩; omega
  simp only [getMultivariatePolynomial, if_neg h1, if_neg h2]
  by_cases hf : (poly.uq_parameters.getD 0 default).derivative_flag = 1
  · rw [if_pos hf, if_pos hf]
  · rw [if_neg hf, if_neg hf]

/-- C5: for `d > 1`, entry `(i, t)` of the basis-value matrix is the product
over dimensions `k` of the univariate orthonormal value at degree
`index_set[i,k]` evaluated at the `k`-th coordinate of point `t`; for
`d = 1` the call delegates to the single Parameter's evaluator. -/
theorem getMultivariatePolynomial_basis_values :
    (∀ (poly : Polynomial) (pts : List (List ℚ)) (iset : List (List ℕ)),
      2 ≤ poly.uq_parameters.length →
      ((getMultivariatePolynomial poly pts (some iset)).1.length = iset.length ∧
       ∀ i, i < iset.length → ∀ t, t < pts.length →
         (((getMultivariatePolynomial poly pts (some iset)).1).getD i []).getD t 0 =
           ((List.range poly.uq_parameters.length).map (fun k =>
             (poly.uq_parameters.getD k default).orthoValue
               ((iset.getD i []).getD k 0) ((pts.getD t []).getD k 0))).prod)) ∧
    (∀ (poly : Polynomial) (pts : List (List ℚ)) (indexsets : Option (List (List ℕ))),
      poly.uq_parameters.length = 1 →
      ((poly.uq_parameters.getD 0 default).derivative_flag = 0 ∨
       (poly.uq_parameters.getD 0 default).derivative_flag = 1) →
      (getMultivariatePolynomial poly pts indexsets).1 =
        (getOrthoPoly (poly.uq_parameters.getD 0 default)
          (pts.map (fun r => r.getD 0 0))
          (poly.uq_parameters.getD 0 default).order).1) := by
  constructor
  · intro poly pts iset hd
    rw [getMultivariatePolynomial_of_multi poly pts iset hd]
    constructor
    · simp [polyPart]
    · intro i hi t ht
      show ((polyPart poly.uq_parameters pts iset).getD i []).getD t 0 = _
      rw [polyPart, range_map_getD _ i _ [] hi]
      exact prodFold_getD poly.uq_parameters pts iset _ i t hi ht
  · intro poly pts indexsets h1 hflag
    rcases hflag with h0 | h0
    · have hcond : poly.uq_parameters.length = 1 ∧
          (poly.uq_parameters.getD 0 default).derivative_flag = 0 := ⟨h1, h0⟩
      simp only [getMultivariatePolynomial, if_pos hcond]
    · have hneg : ¬(poly.uq_parameters.length = 1 ∧
          (poly.uq_parameters.getD 0 default).derivative_flag = 0) := by
        rintro ⟨_, h⟩
        rw [h0] at h
        exact one_ne_zero h
      have hcond : poly.uq_parameters.length = 1 ∧
          (poly.uq_parameters.getD 0 default).derivative_flag = 1 := ⟨h1, h0⟩
      simp only [getMultivariatePolynomial, if_neg hneg, if_pos hcond]

/-- Witness for C5: concrete two-dimensional instance; with `x ^ deg` as the
univariate family, the basis entry at multi-index `(1,2)` and point
`(1/2, 2)` is `(1/2)^1 * 2^2 = 2`. -/
theorem getMultivariatePolynomial_basis_values_witness :
    (((getMultivariatePolynomial testPoly2 [[(1 : ℚ)/2, 2]]
        (some [[1, 2]])).1).getD 0 []).getD 0 0 = 2 := by
  have h := (getMultivariatePolynomial_basis_values.1 testPoly2 [[(1 : ℚ)/2, 2]]
    [[1, 2]] (by decide)).2 0 (by decide) 0 (by decide)
  rw [h]
  norm_num [testPoly2, testParam, List.range_succ]

/-- C4: for `d > 1` with derivatives requested, dimension `j` of the
derivative structure holds, at row `i` and point `t`, the univariate
derivative at degree `index_set[i,j]` in dimension `j` times the product of
univariate values at the corresponding degrees over all other dimensions. -/
theorem getMultivariatePolynomial_deriv_entries (poly : Polynomial)
    (pts : List (List ℚ)) (iset : List (List ℕ))
    (hd : 2 ≤ poly.uq_parameters.length)
    (hflag : (poly.uq_parameters.getD 0 default).derivative_flag = 1) :
    (getMultivariatePolynomial poly pts (some iset)).2 =
      DerivResult.perDim (derivPart poly.uq_parameters pts iset) ∧
    (derivPart poly.uq_parameters pts iset).length = poly.uq_parameters.length ∧
    ∀ j, j < poly.uq_parameters.length →
      (((derivPart poly.uq_parameters pts iset).getD j []).length = iset.length ∧
       (∀ r ∈ (derivPart poly.uq_parameters pts iset).getD j [], r.length = pts.length) ∧
       ∀ i, i < iset.length → ∀ t, t < pts.length →
         ((((derivPart poly.uq_parameters pts iset).getD j []).getD i []).getD t 0 =
           (poly.uq_parameters.getD j default).orthoDeriv
             ((iset.getD i []).getD j 0) ((pts.getD t []).getD j 0) *
           (((List.range poly.uq_parameters.length).filter (fun k => k ≠ j)).map
             (fun k => (poly.uq_parameters.getD k default).orthoValue
               ((iset.getD i []).getD k 0) ((pts.getD t []).getD k 0))).prod)) := by
  refine ⟨?_, by simp [derivPart], ?_⟩
  · rw [getMultivariatePolynomial_of_multi poly pts iset hd]
    exact congrArg Prod.snd (congrArg _ (if_pos hflag))
  intro j hj
  rw [derivPart, range_map_getD _ j _ [] hj]
  refine ⟨by simp, ?_, ?_⟩
  · intro r hr
    rcases List.mem_map.mp hr with ⟨i, hi, rfl⟩
    have hi' : i < iset.length := by simpa using List.mem_range.mp hi
    show (elemMul _ _).length = pts.length
    rw [elemMul_length, dMat_row poly.uq_parameters pts iset j i hi',
        prodFold_length poly.uq_parameters pts iset _ i hi']
    simp
  · intro i hi t ht
    rw [range_map_getD _ i _ [] hi]
    show (elemMul ((dMat poly.uq_parameters pts iset j).getD
        ((iset.getD i []).getD j 0) []) _).getD t 0 = _
    rw [elemMul_getD _ _ t
        (by rw [dMat_row poly.uq_parameters pts iset j i hi]; simpa using ht)
        (by rw [prodFold_length poly.uq_parameters pts iset _ i hi]; exact ht)]
    rw [prodFold_getD poly.uq_parameters pts iset _ i t hi ht]
    rw [dMat_row poly.uq_parameters pts iset j i hi]
    rw [getD_map_lt pts _ t ht [] 0]

/-- A two-dimensional Polynomial whose first Parameter requests derivatives. -/
def testPoly2d : Polynomial :=
  { uq_parameters := [testParam 2 "Uniform" 1, testParam 3 "Gaussian" 0],
    index_sets := { index_set_type := "Tensor grid", sparse_indices := [],
                    sparse_factors := [], elements := [] } }

/-- Witness for C4: at multi-index `(1,2)` and point `(1/2, 2)` the partial
derivative in dimension 0 is `1 * (1/2)^0 * 2^2 = 4`. -/
theorem getMultivariatePolynomial_deriv_entries_witness :
    ((((derivPart testPoly2d.uq_parameters [[(1 : ℚ)/2, 2]] [[1, 2]]).getD 0 []).getD 0
      []).getD 0 0) = 4 := by
  have h := ((getMultivariatePolynomial_deriv_entries testPoly2d [[(1 : ℚ)/2, 2]]
    [[1, 2]] (by decide) (by decide)).2.2 0 (by decide)).2.2 0 (by decide) 0 (by decide)
  rw [h]
  norm_num [testPoly2d, testParam, List.range_succ]

/-- A two-dimensional Polynomial where only the SECOND Parameter requests
derivatives. -/
def testPolyAnyFlag : Polynomial :=
  { uq_parameters := [testParam 2 "Uniform" 0, testParam 2 "Uniform" 1],
    index_sets := { index_set_type := "Tensor grid", sparse_indices := [],
                    sparse_factors := [], elements := [] } }

/-- Counterexample to C8 as stated: a Parameter other than the first
requests derivatives, yet the evaluator returns the empty sentinel (the
source checks only `stackOfParameters[0].derivative_flag`). -/
theorem getMultivariatePolynomial_any_flag_cex :
    (getMultivariatePolynomial testPolyAnyFlag [[0, 0]] (some [[0, 0]])).2 =
      DerivResult.empty ∧
    (testPolyAnyFlag.uq_parameters.map (fun prm => prm.derivative_flag)).contains 1
      = true := by
  exact ⟨by decide, by decide⟩

/-- C8 (amended): the derivative structure is governed by the FIRST
Parameter's flag: empty sentinel when that flag is not 1; when it is 1, the
single derivative matrix for `d = 1` and the per-dimension structure (one
matrix per dimension) for `d ≥ 2`. -/
theorem getMultivariatePolynomial_deriv_presence (poly : Polynomial)
    (pts : List (List ℚ)) (iset : List (List ℕ))
    (hne : poly.uq_parameters ≠ []) :
    ((poly.uq_parameters.getD 0 default).derivative_flag ≠ 1 →
      (getMultivariatePolynomial poly pts (some iset)).2 = DerivResult.empty) ∧
    ((poly.uq_parameters.getD 0 default).derivative_flag = 1 →
      (poly.uq_parameters.length = 1 →
        (getMultivariatePolynomial poly pts (some iset)).2 =
          DerivResult.single ((getOrthoPoly (poly.uq_parameters.getD 0 default)
            (pts.map (fun r => r.getD 0 0))
            (poly.uq_parameters.getD 0 default).order).2)) ∧
      (2 ≤ poly.uq_parameters.length →
        (getMultivariatePolynomial poly pts (some iset)).2 =
          DerivResult.perDim (derivPart poly.uq_parameters pts iset) ∧
        (derivPart poly.uq_parameters pts iset).length =
          poly.uq_parameters.length)) := by
  have hpos : 0 < poly.uq_parameters.length := List.length_pos.mpr hne
  constructor
  · intro hf
    by_cases h1 : poly.uq_parameters.length = 1
    · by_cases h0 : (poly.uq_parameters.getD 0 default).derivative_flag = 0
      · have hcond : poly.uq_parameters.length = 1 ∧
            (poly.uq_parameters.getD 0 default).derivative_flag = 0 := ⟨h1, h0⟩
        simp only [getMultivariatePolynomial, if_pos hcond]
      · have hneg1 : ¬(poly.uq_parameters.length = 1 ∧
            (poly.uq_parameters.getD 0 default).derivative_flag = 0) := by
          rintro ⟨_, h⟩; exact h0 h
        have hneg2 : ¬(poly.uq_parameters.length = 1 ∧
            (poly.uq_parameters.getD 0 default).derivative_flag = 1) := by
          rintro ⟨_, h⟩; exact hf h
        simp only [getMultivariatePolynomial, if_neg hneg1, if_neg hneg2, if_neg hf]
    · have h2 : 2 ≤ poly.uq_parameters.length := by omega
      rw [getMultivariatePolynomial_of_multi poly pts iset h2]
      exact if_neg hf
  · intro hf
    constructor
    · intro h1
      have hneg : ¬(poly.uq_parameters.length = 1 ∧
          (poly.uq_parameters.getD 0 default).derivative_flag = 0) := by
        rintro ⟨_, h⟩; rw [hf] at h; exact one_ne_zero h
      have hcond : poly.uq_parameters.length = 1 ∧
          (poly.uq_parameters.getD 0 default).derivative_flag = 1 := ⟨h1, hf⟩
      simp only [getMultivariatePolynomial, if_neg hneg, if_pos hcond]
    · intro h2
      rw [getMultivariatePolynomial_of_multi poly pts iset h2]
      exact ⟨if_pos hf, by simp [derivPart]⟩

/-- Witness for C8 (amended): with the first Parameter's flag unset the
result is the empty sentinel. -/
theorem getMultivariatePolynomial_deriv_presence_witness :
    (getMultivariatePolynomial testPoly2 [[0, 0]] (some [[0, 0]])).2 =
      DerivResult.empty :=
  (getMultivariatePolynomial_deriv_presence testPoly2 [[0, 0]] [[0, 0]]
    (by simp [testPoly2])).1 (by decide)

/-! ## 4.3 KroneckerTransform: `efficient_kron_mult`

The numpy buffer (the single coefficient row `Uc`, shape `(1, gn)`) is
embedded as a total function `ℕ → ℚ` during the sweep — a numpy array is a
map from flat positions to values; strided assignment becomes pointwise
functional update — and converted back to a list of the original length at
the end (the transform is length-preserving). -/

/-- `Uc[:, indices_required] = temp_transpose`: write the transformed values
back at the strided positions, one `Function.update` per position. -/
def scatterUpdate (f : ℕ → ℚ) (idxs : List ℕ) (vals : List ℚ) : ℕ → ℚ :=
  (idxs.zip vals).foldl (fun g pv => Function.update g pv.1 pv.2) f

/-- The inner `j`-loop of `efficient_kron_mult` (`polynomial.py` lines
467–474): for each stride offset `j`, gather the sub-vector at positions
`base + j + nright * t` (`t < n_i`), multiply by `Q[i]`, and scatter back. -/
def ekmInner (Qi : List (List ℚ)) (ni nright base : ℕ) (f : ℕ → ℚ) : ℕ → ℚ :=
  (List.range nright).foldl (fun g j =>
    let indices_required := (List.range ni).map (fun t => base + j + nright * t)
    let small_Uc := indices_required.map g
    let temp := matVec Qi small_Uc
    scatterUpdate g indices_required temp) f

/-- The `k`-loop over the `nleft` outer blocks (`polynomial.py` lines
464–475): the source advances `base` by `jump = n_i * nright` per block, so
block `k` starts at `k * (n_i * nright)`. -/
def ekmBlocks (Qi : List (List ℚ)) (ni nright nleft : ℕ) (f : ℕ → ℚ) : ℕ → ℚ :=
  (List.range nleft).foldl (fun g k => ekmInner Qi ni nright (k * (ni * nright)) g) f

/-- The outer dimension sweep (`polynomial.py` lines 463–478), processing
`i = N-1, …, 0`; the counter argument is the number of dimensions still to
process.  After each dimension, `nleft` is divided by `n[max(i,0)-1]`
(Python's `n[-1]` wrap-around for `i = 0`, where the update is dead) and
`nright` is multiplied by `n[i]`. -/
def ekmLoop (Q : List (List (List ℚ))) (n : List ℕ) :
    ℕ → ℕ → ℕ → (ℕ → ℚ) → (ℕ → ℚ)
  | 0, _, _, f => f
  | i + 1, nleft, nright, f =>
      let Qi := Q.getD i []
      let ni := n.getD i 0
      let g := ekmBlocks Qi ni nright nleft f
      let divisor := if i = 0 then n.getLastD 0 else n.getD (i - 1) 0
      ekmLoop Q n i (nleft / divisor) (nright * ni) g

/-- `efficient_kron_mult(Q, Uc)` (`polynomial.py` lines 448–480): apply
`Q[0] ⊗ … ⊗ Q[N-1]` to the row buffer by one mode sweep per dimension.
`n[i] = len(Q[i])` and `nleft` starts as the product of all but the last
size, `nright` as 1. -/
def efficient_kron_mult (Q : List (List (List ℚ))) (Uc : List ℚ) : List ℚ :=
  let N := Q.length
  let n := Q.map (fun Qi => Qi.length)
  let nleft := (n.take (N - 1)).prod
  let nright := 1
  let g := ekmLoop Q n N nleft nright (fun pt => Uc.getD pt 0)
  (List.range Uc.length).map g

/-! ## 4.4 TensorCoefficientSolver: `getPseudospectralCoefficients`

The embedding returns the `Option` result (the value, the tensor-grid index
set and the sampled points; `none` models an uncaught Python exception)
paired with the evaluation trace: the list of points, in order, at which the
user function was invoked. -/

def getPseudospectralCoefficients (poly : Polynomial) (f : List ℚ → ℚ)
    (override_orders : Option (List ℕ)) :
    Option (List ℚ × List (List ℕ) × List (List ℚ)) × List (List ℚ) :=
  let stackOfParameters := poly.uq_parameters
  let orders := effectiveOrders poly override_orders
  let Q := (stackOfParameters.zip orders).map (fun pr => pr.1.getJacobiEigenvectors pr.2)
  let q0 := (stackOfParameters.zip orders).foldl
    (fun q0 pr =>
      let Qmatrix := pr.1.getJacobiEigenvectors pr.2
      if pr.2 = 1 then kronVec q0 Qmatrix.flatten
      else kronVec q0 (Qmatrix.getD 0 []))
    [1]
  let pw := getPointsAndWeights poly override_orders
  let p := pw.1
  match p with
  | [] => (none, [])
  | p0 :: _ =>
    let gn := orders.prod
    if 1 < gn then
      let function_values := (List.range gn).map (fun i => f (p.getD i []))
      let Uc := (List.range gn).map (fun j => q0.getD j 0 * function_values.getD j 0)
      let order_correction := orders.map (fun o => o - 1)
      let tensor_set := tensorGridIndexSet order_correction
      let K := efficient_kron_mult Q Uc
      (some (K, tensor_set, p), p0 :: (List.range gn).map (fun i => p.getD i []))
    else
      (none, [p0])

/-! ## 4.5 SparseCoefficientMerger: `getSparsePseudospectralCoefficients` -/

/-- Modelled from the spec: `utils.find_repeated_elements(index_to_pick,
store)` — the duplicate-row finder of the external `utils` module (spec §6,
§4.5): the positions of every row of `store` whose multi-index (all columns
after the leading coefficient) equals, by exact integer equality, that of
the picked row. -/
def find_repeated_elements (k : ℕ) (store : List (ℚ × List ℕ)) : List ℕ :=
  (List.range store.length).filter
    (fun q => (store.getD q (0, [])).2 = (store.getD k (0, [])).2)

/-- `np.delete(store, rep, axis=0)`: keep the rows whose position is not
listed in `rep`. -/
def np_delete (store : List (ℚ × List ℕ)) (rep : List ℕ) : List (ℚ × List ℕ) :=
  ((List.range store.length).filter (fun q => ¬ q ∈ rep)).map
    (fun q => store.getD q (0, []))

/-- The coefficient accumulation of `polynomial.py` lines 409–414: sum the
(already weighted) coefficients at the repeated positions. -/
def coefficientSum (store : List (ℚ × List ℕ)) (rep : List ℕ) : ℚ :=
  (rep.map (fun q => (store.getD q (0, [])).1)).sum

/-- The merge while-loop of `polynomial.py` lines 398–430, with explicit
fuel for structural recursion: each pass removes at least the picked row
(position 0 matches itself), so `store.length` passes always suffice. -/
def mergeAux : ℕ → List (ℚ × List ℕ) → List (ℚ × List ℕ)
  | 0, _ => []
  | _, [] => []
  | fuel + 1, h :: rest =>
      let store := h :: rest
      let rep := find_repeated_elements 0 store
      (coefficientSum store rep, h.2) :: mergeAux fuel (np_delete store rep)

/-- The full merge: run the while loop until the store is empty. -/
def mergeStore (store : List (ℚ × List ℕ)) : List (ℚ × List ℕ) :=
  mergeAux store.length store

/-- All component solves of `polynomial.py` lines 376–382, each at
`orders = component_order + 1`; a raise in any component aborts the whole
call (the trace keeps the points evaluated up to the failure). -/
def solveComponents (poly : Polynomial) (f : List ℚ → ℚ) :
    List (List ℕ) →
      Option (List (List ℚ × List (List ℕ) × List (List ℚ))) × List (List ℚ)
  | [] => (some [], [])
  | o :: rest =>
      let r := getPseudospectralCoefficients poly f (some (o.map (fun x => x + 1)))
      match r.1 with
      | none => (none, r.2)
      | some kip =>
          let rs := solveComponents poly f rest
          (rs.1.map (fun comps => kip :: comps), r.2 ++ rs.2)

/-- The store assembly of `polynomial.py` lines 384–394: for component `i`
and row `j < len(I_i)`, one entry holding `sparse_factors[i] * K_i[j]` and
the multi-index `I_i[j]`. -/
def buildStore (factors : List ℚ)
    (comps : List (List ℚ × List (List ℕ) × List (List ℚ))) : List (ℚ × List ℕ) :=
  (factors.zip comps).flatMap (fun fc =>
    (List.range fc.2.2.1.length).map (fun j =>
      (fc.1 * fc.2.1.getD j 0, fc.2.2.1.getD j [])))

/-- The matching `points_saved` rows (`polynomial.py` line 393). -/
def buildPoints (comps : List (List ℚ × List (List ℕ) × List (List ℚ))) :
    List (List ℚ) :=
  comps.flatMap (fun c => (List.range c.2.1.length).map (fun j => c.2.2.getD j []))

/-- `getSparsePseudospectralCoefficients` (`polynomial.py` lines 360–446):
solve every sparse component at `component_order + 1`, weight and pool all
(coefficient, multi-index) pairs, merge duplicates by exact multi-index
equality summing coefficients, and split the merged store into the
coefficient list and the index matrix (the final int cast is the identity
here, indices being naturals already). -/
def getSparsePseudospectralCoefficients (poly : Polynomial) (f : List ℚ → ℚ) :
    Option (List ℚ × List (List ℕ) × List (List ℚ)) × List (List ℚ) :=
  let sparse_indices := poly.index_sets.sparse_indices
  let sparse_factors := poly.index_sets.sparse_factors
  let sc := solveComponents poly f sparse_indices
  match sc.1 with
  | none => (none, sc.2)
  | some comps =>
      let store := buildStore sparse_factors comps
      let points_saved := buildPoints comps
      let final_store := mergeStore store
      let coefficients := final_store.map (fun e => e.1)
      let indices := final_store.map (fun e => e.2)
      (some (coefficients, indices, points_saved), sc.2)

/-! ## `getPolynomialCoefficients` and `getPolynomialApproximation` -/

/-- `Polynomial.getPolynomialCoefficients` (`polynomial.py` lines 236–260).
The source's dispatch is `if … if … else`: for a `"Tensor grid"` index set
the first `if` runs a full tensor solve, then — since the second `if`'s
condition fails — the `else` branch runs it again, and the second result is
what is returned. -/
def getPolynomialCoefficients (poly : Polynomial) (f : List ℚ → ℚ) :
    Option (List ℚ × List (List ℕ) × List (List ℚ)) × List (List ℚ) :=
  let method := poly.index_sets.index_set_type
  if method = "Tensor grid" then
    let r1 := getPseudospectralCoefficients poly f none
    match r1.1 with
    | none => (none, r1.2)
    | some _ =>
        let r2 := getPseudospectralCoefficients poly f none
        (r2.1, r1.2 ++ r2.2)
  else if method = "Sparse grid" then
    getSparsePseudospectralCoefficients poly f
  else
    getPseudospectralCoefficients poly f none

/-- `polyapprox = P.T * C` (`polynomial.py` lines 279–283): column `t` of
the basis matrix dotted with the coefficient column. -/
def polyTransposeMul (P : List (List ℚ)) (C : List ℚ) : List ℚ :=
  (List.range (P.headD []).length).map (fun t => dot (P.map (fun row => row.getD t 0)) C)

/-- `Polynomial.getPolynomialApproximation` (`polynomial.py` lines 262–283):
with precomputed coefficients and index set, evaluate the basis at the
query points and form `P.T * C`; otherwise compute the coefficients first. -/
def getPolynomialApproximation (poly : Polynomial) (f : List ℚ → ℚ)
    (plotting_pts : List (List ℚ)) (coefficients : Option (List ℚ))
    (indexset : Option (List (List ℕ))) : Option (List ℚ) :=
  match coefficients, indexset with
  | some C, some I =>
      some (polyTransposeMul (getMultivariatePolynomial poly plotting_pts (some I)).1 C)
  | _, _ =>
      match (getPolynomialCoefficients poly f).1 with
      | none => none
      | some r =>
          some (polyTransposeMul
            (getMultivariatePolynomial poly plotting_pts (some r.2.1)).1 r.1)

/-! ### Claim C9: the order-one crash -/

/-- C9: whenever every (stored or overridden) per-dimension order equals 1 —
in particular for a sparse component with an all-zero order vector solved at
`component_order + 1` — the tensor solver raises at the `Uc[0,1]` pre-write
into the length-1 coefficient buffer (`none` here), before producing any
coefficients, having evaluated the function at most once. -/
theorem getPseudospectralCoefficients_order_one (poly : Polynomial)
    (f : List ℚ → ℚ) (override_orders : Option (List ℕ))
    (h1 : ∀ o ∈ effectiveOrders poly override_orders, o = 1) :
    (getPseudospectralCoefficients poly f override_orders).1 = none ∧
    (getPseudospectralCoefficients poly f override_orders).2.length ≤ 1 := by
  have hgn : (effectiveOrders poly override_orders).prod = 1 := List.prod_eq_one h1
  rcases hp : (getPointsAndWeights poly override_orders).1 with _ | ⟨p0, rest⟩ <;>
    simp [getPseudospectralCoefficients, hp, hgn]

/-- Witness for C9: overridden orders `[1, 1]` make the solve fail. -/
theorem getPseudospectralCoefficients_order_one_witness :
    (getPseudospectralCoefficients testPoly2 (fun _ => 1) (some [1, 1])).1 = none :=
  (getPseudospectralCoefficients_order_one testPoly2 (fun _ => 1) (some [1, 1])
    (by decide)).1

/-! ### Claim C3: how often the user function is evaluated -/

/-- A one-dimensional tensor-grid Polynomial of order 2. -/
def testPolyT : Polynomial :=
  { uq_parameters := [testParam 2 "Gaussian" 0],
    index_sets := { index_set_type := "Tensor grid", sparse_indices := [],
                    sparse_factors := [], elements := [] } }

/-- Counterexample to C3 as stated: for a tensor-grid Polynomial of orders
`[2]`, the user function is NOT evaluated `Π orders = 2` times by
`getPolynomialCoefficients` (the trace has 6 entries, not 2). -/
theorem getPolynomialCoefficients_eval_count_cex :
    ¬ ((getPolynomialCoefficients testPolyT (fun _ => 1)).2.length =
        (effectiveOrders testPolyT none).prod) := by
  decide

/-- The tensor solve succeeds for `Π orders > 1` and then evaluates the user
function `Π orders + 1` times: once per grid point, plus the extra
first-point probe of `polynomial.py` line 329. -/
theorem getPseudospectralCoefficients_trace (poly : Polynomial) (f : List ℚ → ℚ)
    (override_orders : Option (List ℕ))
    (hlen : (effectiveOrders poly override_orders).length = poly.uq_parameters.length)
    (hq : ∀ pr ∈ poly.uq_parameters.zip (effectiveOrders poly override_orders),
      ((pr.1.getLocalQuadrature pr.2).1.length = pr.2 ∧
       (pr.1.getLocalQuadrature pr.2).2.length = pr.2))
    (hgn : 1 < (effectiveOrders poly override_orders).prod) :
    (getPseudospectralCoefficients poly f override_orders).1.isSome = true ∧
    (getPseudospectralCoefficients poly f override_orders).2.length =
      (effectiveOrders poly override_orders).prod + 1 := by
  have hplen : (getPointsAndWeights poly override_orders).1.length =
      (effectiveOrders poly override_orders).prod :=
    (getPointsAndWeights_shape poly override_orders hlen hq).1
  rcases hp : (getPointsAndWeights poly override_orders).1 with _ | ⟨p0, rest⟩
  · rw [hp] at hplen
    simp at hplen
    omega
  · constructor <;>
      simp [getPseudospectralCoefficients, hp, if_pos hgn, Nat.add_comm]

/-- C3 (amended): for a stored tensor-grid index set (with a well-posed
quadrature contract and `Π orders > 1` so the solve succeeds),
`getPolynomialCoefficients` invokes the user function `2 * (Π orders + 1)`
times: the `if … if … else` dispatch runs the tensor solve twice, and each
solve evaluates the first quadrature point once more than the main loop. -/
theorem getPolynomialCoefficients_eval_count (poly : Polynomial) (f : List ℚ → ℚ)
    (hmethod : poly.index_sets.index_set_type = "Tensor grid")
    (hlen : (effectiveOrders poly none).length = poly.uq_parameters.length)
    (hq : ∀ pr ∈ poly.uq_parameters.zip (effectiveOrders poly none),
      ((pr.1.getLocalQuadrature pr.2).1.length = pr.2 ∧
       (pr.1.getLocalQuadrature pr.2).2.length = pr.2))
    (hgn : 1 < (effectiveOrders poly none).prod) :
    (getPolynomialCoefficients poly f).2.length =
      2 * ((effectiveOrders poly none).prod + 1) := by
  rcases getPseudospectralCoefficients_trace poly f none hlen hq hgn with ⟨hs, ht⟩
  rcases Option.isSome_iff_exists.mp hs with ⟨v, hv⟩
  simp only [getPolynomialCoefficients, if_pos hmethod, hv]
  simp [ht]
  ring

/-- Witness for C3 (amended): the order-2 tensor Polynomial yields a
6-entry evaluation trace, `2 * (2 + 1)`. -/
theorem getPolynomialCoefficients_eval_count_witness :
    (getPolynomialCoefficients testPolyT (fun _ => 1)).2.length = 2 * (2 + 1) := by
  have h := getPolynomialCoefficients_eval_count testPolyT (fun _ => 1)
    (by decide) (by decide) (by decide) (by decide)
  rw [h]
  decide

/-! ### The sparse merge, characterized (claim C1)

The position-based primitives (`find_repeated_elements`, `np.delete`, the
positional coefficient sum) are first related to element-level filters, and
the while loop is then shown to produce, for each multi-index in order of
first occurrence, the sum of all pooled coefficients carrying it. -/

theorem range_filter_map_getD {α : Type} (p : α → Bool) (s : List α) (d : α) :
    ((List.range s.length).filter (fun q => p (s.getD q d))).map
      (fun q => s.getD q d) = s.filter p := by
  induction s with
  | nil => simp
  | cons h t ih =>
      rw [List.length_cons, List.range_succ_eq_map, List.filter_cons]
      simp only [List.getD_cons_zero]
      have hcomp : ((fun q => p ((h :: t).getD q d)) ∘ Nat.succ) =
          fun q => p (t.getD q d) := by
        funext q; simp [List.getD_cons_succ]
      have hcomp2 : ((fun q => (h :: t).getD q d) ∘ Nat.succ) =
          fun q => t.getD q d := by
        funext q; simp [List.getD_cons_succ]
      by_cases hp : p h
      · rw [if_pos hp, List.map_cons, List.getD_cons_zero, List.filter_map,
            List.map_map, hcomp, hcomp2, ih, List.filter_cons, if_pos hp]
      · rw [if_neg hp, List.filter_map, List.map_map, hcomp, hcomp2, ih,
            List.filter_cons, if_neg hp]

theorem range_filter_map_getD_fun {α β : Type} (p : α → Bool) (g : α → β)
    (s : List α) (d : α) :
    ((List.range s.length).filter (fun q => p (s.getD q d))).map
      (fun q => g (s.getD q d)) = (s.filter p).map g := by
  have := congrArg (List.map g) (range_filter_map_getD p s d)
  simpa [List.map_map, Function.comp] using this

/-- Deleting the rows that repeat the head's multi-index keeps exactly the
rows with a different multi-index. -/
theorem np_delete_repeated (h : ℚ × List ℕ) (t : List (ℚ × List ℕ)) :
    np_delete (h :: t) (find_repeated_elements 0 (h :: t)) =
      (h :: t).filter (fun e => ¬(e.2 = h.2)) := by
  rw [np_delete]
  have hcong : ∀ q ∈ List.range (h :: t).length,
      (decide (¬ q ∈ find_repeated_elements 0 (h :: t))) =
        (fun e => decide (¬(e.2 = h.2))) ((h :: t).getD q (0, [])) := by
    intro q hq
    have : (q ∈ find_repeated_elements 0 (h :: t)) ↔
        (((h :: t).getD q (0, [])).2 = h.2) := by
      constructor
      · intro hmem
        rcases List.mem_filter.mp hmem with ⟨_, hpred⟩
        simpa using of_decide_eq_true hpred
      · intro heq
        refine List.mem_filter.mpr ⟨hq, ?_⟩
        simpa [find_repeated_elements] using heq
    simp [this]
  rw [List.filter_congr hcong]
  exact range_filter_map_getD (fun e => decide (¬(e.2 = h.2))) (h :: t) (0, [])

/-- The positional coefficient sum equals the sum over the matching rows. -/
theorem coefficientSum_repeated (h : ℚ × List ℕ) (t : List (ℚ × List ℕ)) :
    coefficientSum (h :: t) (find_repeated_elements 0 (h :: t)) =
      (((h :: t).filter (fun e => e.2 = h.2)).map (fun e => e.1)).sum := by
  rw [coefficientSum, find_repeated_elements]
  have := range_filter_map_getD_fun (fun e => decide (e.2 = h.2))
    (fun e => e.1) (h :: t) (0, [])
  simp only [List.getD_cons_zero] at this ⊢
  rw [this]

/-- First-occurrence deduplication (the order the spec prescribes for the
merged output), with explicit fuel. -/
def firstOccurAux : ℕ → List (List ℕ) → List (List ℕ)
  | 0, _ => []
  | _, [] => []
  | fuel + 1, m :: rest => m :: firstOccurAux fuel (rest.filter (fun x => ¬(x = m)))

/-- The list of distinct multi-indices in order of first occurrence. -/
def firstOccurrence (l : List (List ℕ)) : List (List ℕ) :=
  firstOccurAux l.length l

theorem firstOccurAux_nil (fuel : ℕ) : firstOccurAux fuel [] = [] := by
  cases fuel <;> rfl

theorem firstOccurAux_fuel : ∀ (fuel fuel' : ℕ) (l : List (List ℕ)),
    l.length ≤ fuel → l.length ≤ fuel' →
    firstOccurAux fuel l = firstOccurAux fuel' l := by
  intro fuel
  induction fuel with
  | zero =>
      intro fuel' l hl _
      have : l = [] := List.length_eq_zero.mp (Nat.le_zero.mp hl)
      subst this
      rw [firstOccurAux_nil, firstOccurAux_nil]
  | succ f ih =>
      intro fuel' l hl hl'
      cases l with
      | nil => rw [firstOccurAux_nil, firstOccurAux_nil]
      | cons m rest =>
          cases fuel' with
          | zero => simp at hl'
          | succ f' =>
              have hflen : (rest.filter (fun x => ¬(x = m))).length ≤ f := by
                have := List.length_filter_le (fun x => decide (¬(x = m))) rest
                simp at hl
                omega
              have hflen' : (rest.filter (fun x => ¬(x = m))).length ≤ f' := by
                have := List.length_filter_le (fun x => decide (¬(x = m))) rest
                simp at hl'
                omega
              show m :: _ = m :: _
              rw [ih f' _ hflen hflen']

theorem firstOccurAux_subset : ∀ (fuel : ℕ) (l : List (List ℕ)),
    ∀ x ∈ firstOccurAux fuel l, x ∈ l := by
  intro fuel
  induction fuel with
  | zero => intro l x hx; simp [firstOccurAux] at hx
  | succ f ih =>
      intro l x hx
      cases l with
      | nil => simp [firstOccurAux_nil] at hx
      | cons m rest =>
          rcases List.mem_cons.mp hx with rfl | hx
          · exact List.mem_cons_self _ _
          · have := ih _ x hx
            exact List.mem_cons_of_mem _ (List.mem_of_mem_filter this)

theorem firstOccurAux_nodup : ∀ (fuel : ℕ) (l : List (List ℕ)),
    (firstOccurAux fuel l).Nodup := by
  intro fuel
  induction fuel with
  | zero => intro l; simp [firstOccurAux]
  | succ f ih =>
      intro l
      cases l with
      | nil => simp [firstOccurAux_nil]
      | cons m rest =>
          refine List.nodup_cons.mpr ⟨?_, ih _⟩
          intro hmem
          have := firstOccurAux_subset f _ m hmem
          rcases List.mem_filter.mp this with ⟨_, hpred⟩
          simp at hpred

/-- The merge loop produces one entry per distinct multi-index, in
first-occurrence order, holding the sum of all matching coefficients. -/
theorem mergeAux_spec : ∀ (fuel : ℕ) (s : List (ℚ × List ℕ)), s.length ≤ fuel →
    mergeAux fuel s = (firstOccurrence (s.map (fun e => e.2))).map
      (fun m => (((s.filter (fun e => e.2 = m)).map (fun e => e.1)).sum, m)) := by
  intro fuel
  induction fuel with
  | zero =>
      intro s hs
      have : s = [] := List.length_eq_zero.mp (Nat.le_zero.mp hs)
      subst this
      simp [mergeAux, firstOccurrence, firstOccurAux]
  | succ f ih =>
      intro s hs
      cases s with
      | nil => simp [mergeAux, firstOccurrence, firstOccurAux]
      | cons h t =>
          rw [mergeAux, np_delete_repeated, coefficientSum_repeated]
          have htail : (h :: t).filter (fun e => ¬(e.2 = h.2)) =
              t.filter (fun e => ¬(e.2 = h.2)) := by
            rw [List.filter_cons, if_neg (by simp)]
          rw [htail]
          have hlen : (t.filter (fun e => ¬(e.2 = h.2))).length ≤ f := by
            have := List.length_filter_le (fun e => decide (¬(e.2 = h.2))) t
            simp at hs
            omega
          rw [ih _ hlen]
          -- right-hand side: peel the head of the first-occurrence list
          have hRHS : firstOccurrence ((h :: t).map (fun e => e.2)) =
              h.2 :: firstOccurrence ((t.filter (fun e => ¬(e.2 = h.2))).map
                (fun e => e.2)) := by
            show firstOccurAux ((h :: t).map (fun e => e.2)).length
              (h.2 :: t.map (fun e => e.2)) = _
            have hlen2 : ((h :: t).map (fun e => e.2)).length = t.length + 1 := by simp
            rw [hlen2]
            show h.2 :: firstOccurAux t.length
              ((t.map (fun e => e.2)).filter (fun x => ¬(x = h.2))) = _
            have hfm : (t.map (fun e => e.2)).filter (fun x => ¬(x = h.2)) =
                (t.filter (fun e => ¬(e.2 = h.2))).map (fun e => e.2) := by
              rw [List.filter_map]
              rfl
            rw [hfm]
            have hle1 : ((t.filter (fun e => ¬(e.2 = h.2))).map
                (fun e => e.2)).length ≤ t.length := by
              have := List.length_filter_le (fun e => decide (¬(e.2 = h.2))) t
              simpa using this
            rw [firstOccurAux_fuel t.length _ _ hle1 (le_refl _)]
            rfl
          rw [hRHS, List.map_cons]
          congr 1
          · -- tails agree entry by entry: every later key differs from h.2
            apply List.map_congr_left
            intro m hm
            have hmem := firstOccurAux_subset _ _ m hm
            rcases List.mem_map.mp hmem with ⟨e, he, rfl⟩
            rcases List.mem_filter.mp he with ⟨_, hpred⟩
            have hne : ¬(e.2 = h.2) := by simpa using hpred
            have hfilter : (t.filter (fun x => ¬(x.2 = h.2))).filter
                (fun x => x.2 = e.2) = t.filter (fun x => x.2 = e.2) := by
              rw [List.filter_filter]
              apply List.filter_congr
              intro a _
              by_cases hax : a.2 = e.2
              · simp [hax, hne]
              · simp [hax]
            have hcons : (h :: t).filter (fun x => x.2 = e.2) =
                t.filter (fun x => x.2 = e.2) := by
              rw [List.filter_cons, if_neg (by simpa using fun hh => hne hh.symm)]
            rw [hfilter, hcons]

/-- C1: whenever every sparse component's tensor solve — run at
`orders = component_order + 1` — succeeds, the merged output lists each
distinct multi-index exactly once, in first-occurrence order over the pooled
weighted entries, and pairs it with the sum, over every pooled entry
carrying exactly that multi-index, of combination weight times tensor
coefficient. -/
theorem getSparsePseudospectralCoefficients_merge (poly : Polynomial)
    (f : List ℚ → ℚ) (comps : List (List ℚ × List (List ℕ) × List (List ℚ)))
    (hsolve : (solveComponents poly f poly.index_sets.sparse_indices).1 = some comps) :
    ∃ K I P,
      (getSparsePseudospectralCoefficients poly f).1 = some (K, I, P) ∧
      I.Nodup ∧
      I = firstOccurrence ((buildStore poly.index_sets.sparse_factors comps).map
        (fun e => e.2)) ∧
      K = I.map (fun m =>
        (((buildStore poly.index_sets.sparse_factors comps).filter
          (fun e => e.2 = m)).map (fun e => e.1)).sum) := by
  have hm := mergeAux_spec (buildStore poly.index_sets.sparse_factors comps).length
    (buildStore poly.index_sets.sparse_factors comps) (le_refl _)
  refine ⟨(mergeStore (buildStore poly.index_sets.sparse_factors comps)).map
      (fun e => e.1),
    (mergeStore (buildStore poly.index_sets.sparse_factors comps)).map (fun e => e.2),
    buildPoints comps, ?_, ?_, ?_, ?_⟩
  · simp only [getSparsePseudospectralCoefficients, hsolve]
  · rw [mergeStore, hm, List.map_map]
    have : ((fun e : ℚ × List ℕ => e.2) ∘ fun m =>
        ((((buildStore poly.index_sets.sparse_factors comps).filter
          (fun e => e.2 = m)).map (fun e => e.1)).sum, m)) = fun m => m := rfl
    rw [this]
    simpa using firstOccurAux_nodup _ _
  · rw [mergeStore, hm, List.map_map]
    have : ((fun e : ℚ × List ℕ => e.2) ∘ fun m =>
        ((((buildStore poly.index_sets.sparse_factors comps).filter
          (fun e => e.2 = m)).map (fun e => e.1)).sum, m)) = fun m => m := rfl
    rw [this]
    simp
  · rw [mergeStore, hm]
    simp only [List.map_map]
    apply List.map_congr_left
    intro m _
    rfl

/-- A one-dimensional sparse-grid Polynomial: two identical components of
order vector `[1]` with fully cancelling combination weights `+1` and `-1`. -/
def testPolyS : Polynomial :=
  { uq_parameters := [testParam 2 "Gaussian" 0],
    index_sets := { index_set_type := "Sparse grid", sparse_indices := [[1], [1]],
                    sparse_factors := [1, -1], elements := [] } }

/-- The component solves of `testPolyS` (each at orders `[2]`). -/
def testCompsS : List (List ℚ × List (List ℕ) × List (List ℚ)) :=
  [([1, 0], [[0], [1]], [[0], [1]]), ([1, 0], [[0], [1]], [[0], [1]])]

/-- The component solves of `testPolyS` evaluate to `testCompsS` (rational
arithmetic is evaluated by `norm_num`; the kernel does not reduce `Rat`
operations). -/
theorem testCompsS_solve :
    (solveComponents testPolyS (fun _ => 1)
      testPolyS.index_sets.sparse_indices).1 = some testCompsS := by
  norm_num [solveComponents, getPseudospectralCoefficients, effectiveOrders,
    getPointsAndWeights, pwStep, rescalePoint, testParam, testPolyS, testCompsS,
    kronVec, efficient_kron_mult, ekmLoop, ekmBlocks, ekmInner, scatterUpdate,
    matVec, dot, tensorGridIndexSet, Function.update_apply, List.range_succ]
  decide

/-- Witness for C1: on the concrete sparse instance the merged result pairs
the deduplicated multi-indices `[[0], [1]]` with the cancelled sums `[0, 0]`. -/
theorem getSparsePseudospectralCoefficients_merge_witness :
    ((getSparsePseudospectralCoefficients testPolyS (fun _ => 1)).1.map
      (fun r => (r.1, r.2.1))) = some ([0, 0], [[0], [1]]) := by
  obtain ⟨K, I, P, h1, h2, h3, h4⟩ :=
    getSparsePseudospectralCoefficients_merge testPolyS (fun _ => 1) testCompsS
      testCompsS_solve
  have hI : I = [[0], [1]] := by
    rw [h3]
    decide
  have hK : K = [0, 0] := by
    rw [h4, hI]
    norm_num [buildStore, testCompsS, testPolyS, List.range_succ]
  rw [h1, hI, hK]
  rfl

/-! ### Claim C7: fully cancelling combination weights -/

/-- Counterexample to C7 as stated: the sparse factors fully cancel
(`+1` and `-1` on identical components), yet the merged CoefficientSet has
2 entries — the merge never discards the multi-indices, it only zeroes the
coefficients. -/
theorem sparse_cancellation_nonempty_cex :
    ((getSparsePseudospectralCoefficients testPolyS (fun _ => 1)).1.map
      (fun r => r.2.1.length)) = some 2 ∧
    testPolyS.index_sets.sparse_factors.sum = 0 := by
  constructor
  · rw [getSparsePseudospectralCoefficients, testCompsS_solve]
    decide
  · norm_num [testPolyS]

theorem dot_zero_right (a b : List ℚ) (h : ∀ x ∈ b, x = 0) : dot a b = 0 := by
  rw [dot]
  apply List.sum_eq_zero
  intro x hx
  rcases List.mem_map.mp hx with ⟨q, hq, rfl⟩
  have := h q.2 (List.of_mem_zip hq).2
  rw [this, mul_zero]

/-- Both solves of a duplicated component agree, so the solved component
list is the pair `[kip, kip]`. -/
theorem solveComponents_pair (poly : Polynomial) (f : List ℚ → ℚ) (o : List ℕ)
    (comps : List (List ℚ × List (List ℕ) × List (List ℚ)))
    (hsolve : (solveComponents poly f [o, o]).1 = some comps) :
    ∃ kip, (getPseudospectralCoefficients poly f
        (some (o.map (fun x => x + 1)))).1 = some kip ∧ comps = [kip, kip] := by
  rcases hr : (getPseudospectralCoefficients poly f
      (some (o.map (fun x => x + 1)))).1 with _ | kip
  · rw [solveComponents, hr] at hsolve
    simp at hsolve
  · refine ⟨kip, rfl, ?_⟩
    rw [solveComponents, hr] at hsolve
    simp only [solveComponents, hr] at hsolve
    simpa using hsolve.symm

/-- The pooled store of a `[c, -c]`-weighted duplicated component is the
`c`-scaled entry list followed by its `-c`-scaled copy. -/
theorem buildStore_pair (c : ℚ) (kip : List ℚ × List (List ℕ) × List (List ℚ)) :
    buildStore [c, -c] [kip, kip] =
      ((List.range kip.2.1.length).map
        (fun j => ((kip.1.getD j 0 : ℚ), kip.2.1.getD j []))).map
        (fun e => (c * e.1, e.2)) ++
      ((List.range kip.2.1.length).map
        (fun j => ((kip.1.getD j 0 : ℚ), kip.2.1.getD j []))).map
        (fun e => (-c * e.1, e.2)) := by
  simp only [buildStore, List.zip_cons_cons, List.zip_nil_left, List.flatMap_cons,
    List.flatMap_nil, List.append_nil, List.map_map, neg_mul]
  congr 1

/-- With weights `c` and `-c` on the same entry list every per-multi-index
coefficient sum cancels to zero. -/
theorem store_cancel_sum (L : List (ℚ × List ℕ)) (c : ℚ) (m : List ℕ) :
    ((((L.map (fun e => (c * e.1, e.2))) ++
       (L.map (fun e => (-c * e.1, e.2)))).filter
      (fun x => x.2 = m)).map (fun x => x.1)).sum = 0 := by
  rw [List.filter_append, List.map_append, List.sum_append,
      List.filter_map, List.filter_map, List.map_map, List.map_map]
  have h1 : ((fun x : ℚ × List ℕ => x.1) ∘ (fun e : ℚ × List ℕ => (c * e.1, e.2))) =
      fun e : ℚ × List ℕ => c * e.1 := rfl
  have h2 : ((fun x : ℚ × List ℕ => x.1) ∘ (fun e : ℚ × List ℕ => (-c * e.1, e.2))) =
      fun e : ℚ × List ℕ => -c * e.1 := rfl
  have h3 : ((fun x : ℚ × List ℕ => decide (x.2 = m)) ∘
      (fun e : ℚ × List ℕ => (c * e.1, e.2))) = fun e : ℚ × List ℕ => decide (e.2 = m) :=
    rfl
  have h4 : ((fun x : ℚ × List ℕ => decide (x.2 = m)) ∘
      (fun e : ℚ × List ℕ => (-c * e.1, e.2))) =
        fun e : ℚ × List ℕ => decide (e.2 = m) := rfl
  rw [h1, h2, h3, h4]
  have hs1 : ((L.filter (fun e => decide (e.2 = m))).map
      (fun e : ℚ × List ℕ => c * e.1)).sum =
      c * ((L.filter (fun e => decide (e.2 = m))).map
        (fun e : ℚ × List ℕ => e.1)).sum := by
    rw [← List.sum_map_mul_left]
  have hs2 : ((L.filter (fun e => decide (e.2 = m))).map
      (fun e : ℚ × List ℕ => -c * e.1)).sum =
      (-c) * ((L.filter (fun e => decide (e.2 = m))).map
        (fun e : ℚ × List ℕ => e.1)).sum := by
    rw [← List.sum_map_mul_left]
  rw [hs1, hs2]
  ring

/-- C7 (amended): fully cancelling combination weights — two identical
components with weights `c` and `-c` — yield a merged CoefficientSet whose
multi-indices are retained (it is NOT empty in general) but whose
coefficients are all zero, and `getPolynomialApproximation` evaluated from
that result returns zero at every query point, without raising. -/
theorem getSparsePseudospectralCoefficients_cancel (poly : Polynomial)
    (f : List ℚ → ℚ) (o : List ℕ) (c : ℚ)
    (comps : List (List ℚ × List (List ℕ) × List (List ℚ)))
    (hidx : poly.index_sets.sparse_indices = [o, o])
    (hfac : poly.index_sets.sparse_factors = [c, -c])
    (hsolve : (solveComponents poly f poly.index_sets.sparse_indices).1 = some comps) :
    ∃ K I P,
      (getSparsePseudospectralCoefficients poly f).1 = some (K, I, P) ∧
      (∀ x ∈ K, x = 0) ∧
      ∀ (pts : List (List ℚ)),
        (getPolynomialApproximation poly f pts (some K) (some I)).isSome = true ∧
        ∀ x ∈ (getPolynomialApproximation poly f pts (some K) (some I)).getD [],
          x = 0 := by
  obtain ⟨K, I, P, h1, _, _, h4⟩ :=
    getSparsePseudospectralCoefficients_merge poly f comps hsolve
  rw [hidx] at hsolve
  obtain ⟨kip, _, hcomps⟩ := solveComponents_pair poly f o comps hsolve
  have hK0 : ∀ x ∈ K, x = 0 := by
    intro x hx
    rw [h4] at hx
    rcases List.mem_map.mp hx with ⟨m, _, rfl⟩
    rw [hfac, hcomps, buildStore_pair]
    exact store_cancel_sum _ c m
  refine ⟨K, I, P, h1, hK0, ?_⟩
  intro pts
  constructor
  · rfl
  · intro x hx
    simp only [getPolynomialApproximation, Option.getD_some] at hx
    rcases List.mem_map.mp hx with ⟨t, _, rfl⟩
    exact dot_zero_right _ K hK0

/-- Witness for C7 (amended): on the concrete cancelling instance, every
merged coefficient is zero. -/
theorem getSparsePseudospectralCoefficients_cancel_witness :
    ((getSparsePseudospectralCoefficients testPolyS (fun _ => 1)).1.map
      (fun r => r.1.all (fun x => x == 0))) = some true := by
  obtain ⟨K, I, P, h1, h2, _⟩ :=
    getSparsePseudospectralCoefficients_cancel testPolyS (fun _ => 1) [1] 1 testCompsS
      rfl rfl testCompsS_solve
  rw [h1]
  have hall : K.all (fun x => x == 0) = true := by
    rw [List.all_eq_true]
    intro x hx
    simpa using h2 x hx
  simp [hall]

/-! ### Claim C2: the Kronecker transform refines the explicit product

The refinement proof proceeds in three layers: the Kronecker-product
algebra of the explicit oracle (entries, shapes, associativity); the
pointwise effect of the strided gather/scatter loops; and the dimension
sweep, related by induction to the partially applied Kronecker product. -/

theorem kronVec_length (a b : List ℚ) : (kronVec a b).length = a.length * b.length :=
  length_flatMap_const a _ b.length (fun _ _ => by simp)

theorem kronVec_getD (a b : List ℚ) (y u : ℕ) (hy : y < a.length)
    (hu : u < b.length) :
    (kronVec a b).getD (y * b.length + u) 0 = a.getD y 0 * b.getD u 0 := by
  induction a generalizing y with
  | nil => simp at hy
  | cons a0 arest ih =>
      cases y with
      | zero =>
          rw [kronVec, List.flatMap_cons, Nat.zero_mul, Nat.zero_add]
          rw [List.getD_append _ _ _ _ (by simpa using hu)]
          rw [getD_map_lt b _ u hu 0 0, List.getD_cons_zero]
      | succ y' =>
          have hy' : y' < arest.length := by simpa using hy
          have hb : b.length ≤ (y' + 1) * b.length := Nat.le_mul_of_pos_left _ (by omega)
          rw [kronVec, List.flatMap_cons]
          rw [List.getD_append_right _ _ _ _ (by simp; omega)]
          have hsub : (y' + 1) * b.length + u - (b.map (fun x => a0 * x)).length =
              y' * b.length + u := by
            simp [Nat.succ_mul]
            omega
          rw [hsub, List.getD_cons_succ]
          exact ih y' hy'

theorem kronMat_length (A B : List (List ℚ)) :
    (kronMat A B).length = A.length * B.length :=
  length_flatMap_const A _ B.length (fun _ _ => by simp)

theorem kronMat_getD_row (A B : List (List ℚ)) (x t : ℕ) (hx : x < A.length)
    (ht : t < B.length) :
    (kronMat A B).getD (x * B.length + t) [] =
      kronVec (A.getD x []) (B.getD t []) := by
  induction A generalizing x with
  | nil => simp at hx
  | cons a0 arest ih =>
      cases x with
      | zero =>
          rw [kronMat, List.flatMap_cons, Nat.zero_mul, Nat.zero_add]
          rw [List.getD_append _ _ _ _ (by simpa using ht)]
          rw [getD_map_lt B _ t ht [] [], List.getD_cons_zero]
      | succ x' =>
          have hx' : x' < arest.length := by simpa using hx
          rw [kronMat, List.flatMap_cons]
          rw [List.getD_append_right _ _ _ _ (by
            simp
            have : B.length ≤ (x' + 1) * B.length := Nat.le_mul_of_pos_left _ (by omega)
            omega)]
          have hsub : (x' + 1) * B.length + t - (B.map (fun br => kronVec a0 br)).length =
              x' * B.length + t := by
            simp [Nat.succ_mul]
            omega
          rw [hsub, List.getD_cons_succ]
          exact ih x' hx'

theorem kronVec_append_left (u v c : List ℚ) :
    kronVec (u ++ v) c = kronVec u c ++ kronVec v c := by
  simp [kronVec]

theorem kronVec_smul_left (x : ℚ) (v c : List ℚ) :
    kronVec (v.map (fun y => x * y)) c = (kronVec v c).map (fun w => x * w) := by
  induction v with
  | nil => rfl
  | cons y v ih =>
      simp only [kronVec, List.map_cons, List.flatMap_cons] at *
      rw [List.map_append, ih]
      congr 1
      rw [List.map_map]
      apply List.map_congr_left
      intro w _
      simp [mul_assoc]

theorem kronVec_assoc (a b c : List ℚ) :
    kronVec (kronVec a b) c = kronVec a (kronVec b c) := by
  induction a with
  | nil => rfl
  | cons x a ih =>
      show kronVec (b.map (fun y => x * y) ++ kronVec a b) c = _
      rw [kronVec_append_left, kronVec_smul_left, ih]
      rfl

theorem kronVec_one_right (a : List ℚ) : kronVec a [1] = a := by
  induction a with
  | nil => rfl
  | cons x a ih =>
      show (x * 1) :: kronVec a [1] = x :: a
      rw [mul_one, ih]

theorem kronVec_one_left (b : List ℚ) : kronVec [1] b = b := by
  show b.map (fun y => 1 * y) ++ [] = b
  simp

theorem kronMat_one_right (M : List (List ℚ)) : kronMat M [[1]] = M := by
  induction M with
  | nil => rfl
  | cons r M ih =>
      show kronVec r [1] :: kronMat M [[1]] = r :: M
      rw [kronVec_one_right, ih]

theorem kronMat_one_left (M : List (List ℚ)) : kronMat [[1]] M = M := by
  show M.map (fun br => kronVec [1] br) ++ [] = M
  simp only [List.append_nil]
  rw [List.map_congr_left (fun br _ => kronVec_one_left br), List.map_id']

theorem kronMat_append_left (U V B : List (List ℚ)) :
    kronMat (U ++ V) B = kronMat U B ++ kronMat V B := by
  simp [kronMat]

theorem kronMat_map_kronVec (r : List ℚ) (B C : List (List ℚ)) :
    kronMat (B.map (fun br => kronVec r br)) C =
      (kronMat B C).map (fun br => kronVec r br) := by
  induction B with
  | nil => rfl
  | cons b0 B ihB =>
      show C.map (fun cr => kronVec (kronVec r b0) cr) ++
        kronMat (B.map (fun br => kronVec r br)) C = _
      rw [ihB]
      show _ = ((C.map (fun cr => kronVec b0 cr)) ++ kronMat B C).map
        (fun br => kronVec r br)
      rw [List.map_append, List.map_map]
      congr 1
      apply List.map_congr_left
      intro cr _
      exact kronVec_assoc r b0 cr

theorem kronMat_assoc (A B C : List (List ℚ)) :
    kronMat (kronMat A B) C = kronMat A (kronMat B C) := by
  induction A with
  | nil => rfl
  | cons r A ih =>
      show kronMat (B.map (fun br => kronVec r br) ++ kronMat A B) C = _
      rw [kronMat_append_left, ih]
      congr 1
      exact kronMat_map_kronVec r B C

theorem kronMatList_append_singleton (L : List (List (List ℚ))) (M : List (List ℚ)) :
    kronMatList (L ++ [M]) = kronMat (kronMatList L) M := by
  induction L with
  | nil =>
      show kronMat M (kronMatList []) = kronMat (kronMatList []) M
      show kronMat M [[1]] = kronMat [[1]] M
      rw [kronMat_one_right, kronMat_one_left]
  | cons A L ih =>
      show kronMat A (kronMatList (L ++ [M])) = kronMat (kronMat A (kronMatList L)) M
      rw [ih, kronMat_assoc]

/-- The Kronecker product of square matrices is square, of the product size. -/
theorem kronMatList_shape (Q : List (List (List ℚ)))
    (hsq : ∀ M ∈ Q, ∀ row ∈ M, row.length = M.length) :
    (kronMatList Q).length = (Q.map (fun M => M.length)).prod ∧
    ∀ row ∈ kronMatList Q, row.length = (Q.map (fun M => M.length)).prod := by
  induction Q with
  | nil =>
      constructor
      · rfl
      · intro row hrow
        rcases List.mem_singleton.mp hrow with rfl
        rfl
  | cons M Q ih =>
      have hM : ∀ row ∈ M, row.length = M.length := hsq M (by simp)
      have hQ : ∀ M' ∈ Q, ∀ row ∈ M', row.length = M'.length :=
        fun M' hM' => hsq M' (by simp [hM'])
      rcases ih hQ with ⟨ih1, ih2⟩
      constructor
      · show (kronMat M (kronMatList Q)).length = _
        rw [kronMat_length, ih1]
        simp
      · intro row hrow
        rcases List.mem_flatMap.mp hrow with ⟨mr, hmr, hmem⟩
        rcases List.mem_map.mp hmem with ⟨kr, hkr, rfl⟩
        rw [kronVec_length, hM mr hmr, ih2 kr hkr]
        simp

theorem dot_eq_sum_getD (a b : List ℚ) :
    dot a b = ((List.range (min a.length b.length)).map
      (fun u => a.getD u 0 * b.getD u 0)).sum := by
  induction a generalizing b with
  | nil => simp [dot]
  | cons x a ih =>
      cases b with
      | nil => simp [dot]
      | cons y b =>
          show dot (x :: a) (y :: b) = _
          have hmin : min (x :: a).length (y :: b).length =
              min a.length b.length + 1 := by
            simp [Nat.succ_min_succ]
          rw [hmin, List.range_succ_eq_map, List.map_cons, List.sum_cons]
          have hdot : dot (x :: a) (y :: b) = x * y + dot a b := by
            simp [dot]
          rw [hdot, ih b]
          simp only [List.getD_cons_zero, List.map_map]
          congr 1

/-- A scatter leaves positions outside its index list unchanged. -/
theorem scatterUpdate_notmem : ∀ (idxs : List ℕ) (vals : List ℚ) (f : ℕ → ℚ) (p : ℕ),
    ¬ p ∈ idxs → scatterUpdate f idxs vals p = f p := by
  intro idxs
  induction idxs with
  | nil => intro vals f p _; rfl
  | cons i idxs ih =>
      intro vals f p hp
      cases vals with
      | nil => rfl
      | cons v vals =>
          have hpi : p ≠ i := fun h => hp (h ▸ List.mem_cons_self _ _)
          have hpm : ¬ p ∈ idxs := fun h => hp (List.mem_cons_of_mem _ h)
          show scatterUpdate (Function.update f i v) idxs vals p = f p
          rw [ih vals _ p hpm, Function.update_noteq hpi]

/-- A scatter writes the `r`-th value at the `r`-th (distinct) index. -/
theorem scatterUpdate_getD : ∀ (idxs : List ℕ) (vals : List ℚ) (f : ℕ → ℚ),
    idxs.Nodup → ∀ r, r < idxs.length → r < vals.length →
    scatterUpdate f idxs vals (idxs.getD r 0) = vals.getD r 0 := by
  intro idxs
  induction idxs with
  | nil => intro vals f _ r hr _; simp at hr
  | cons i idxs ih =>
      intro vals f hnd r hr hv
      cases vals with
      | nil => simp at hv
      | cons v vals =>
          cases r with
          | zero =>
              show scatterUpdate (Function.update f i v) idxs vals i = v
              rw [scatterUpdate_notmem idxs vals _ i (List.nodup_cons.mp hnd).1]
              simp
          | succ r' =>
              show scatterUpdate (Function.update f i v) idxs vals (idxs.getD r' 0) =
                vals.getD r' 0
              exact ih vals _ (List.nodup_cons.mp hnd).2 r' (by simpa using hr)
                (by simpa using hv)

/-- Folding steps that each write only outside the positions of interest
leaves those positions unchanged. -/
theorem foldl_frame {γ : Type} (step : (ℕ → ℚ) → γ → (ℕ → ℚ)) (S : γ → ℕ → Prop)
    (hframe : ∀ f c p, ¬ S c p → step f c p = f p) :
    ∀ (cs : List γ) (f : ℕ → ℚ) (p : ℕ), (∀ c ∈ cs, ¬ S c p) →
      cs.foldl step f p = f p := by
  intro cs
  induction cs with
  | nil => intro f p _; rfl
  | cons c cs ih =>
      intro f p h
      rw [List.foldl_cons, ih _ p (fun c' hc' => h c' (List.mem_cons_of_mem _ hc'))]
      exact hframe f c p (h c (List.mem_cons_self _ _))

/-- Folding steps whose written-and-read regions are pairwise disjoint: the
result at a position inside the region of step `c` is as if `c` alone ran on
the original buffer. -/
theorem foldl_eval {γ : Type} (step : (ℕ → ℚ) → γ → (ℕ → ℚ)) (S : γ → ℕ → Prop)
    (hframe : ∀ f c p, ¬ S c p → step f c p = f p)
    (hlocal : ∀ f g c p, (∀ q, S c q → f q = g q) → S c p → step f c p = step g c p) :
    ∀ (cs : List γ) (f : ℕ → ℚ) (c : γ) (p : ℕ),
      cs.Nodup → c ∈ cs →
      (∀ c₁ ∈ cs, ∀ c₂ ∈ cs, c₁ ≠ c₂ → ∀ q, S c₁ q → ¬ S c₂ q) →
      S c p → cs.foldl step f p = step f c p := by
  intro cs
  induction cs with
  | nil => intro f c p _ hc; cases hc
  | cons c₀ cs ih =>
      intro f c p hnd hc hdisj hp
      rcases List.mem_cons.mp hc with rfl | hc
      · rw [List.foldl_cons]
        apply foldl_frame step S hframe
        intro c' hc'
        have hne : c ≠ c' := by
          rintro rfl
          exact (List.nodup_cons.mp hnd).1 hc'
        exact hdisj c (List.mem_cons_self _ _) c' (List.mem_cons_of_mem _ hc') hne p hp
      · rw [List.foldl_cons]
        rw [ih (step f c₀) c p (List.nodup_cons.mp hnd).2 hc
          (fun c₁ h₁ c₂ h₂ => hdisj c₁ (List.mem_cons_of_mem _ h₁) c₂
            (List.mem_cons_of_mem _ h₂)) hp]
        apply hlocal
        · intro q hq
          apply hframe
          have hne : c₀ ≠ c := by
            rintro rfl
            exact (List.nodup_cons.mp hnd).1 hc
          exact fun hS0 =>
            hdisj c₀ (List.mem_cons_self _ _) c (List.mem_cons_of_mem _ hc) hne q hS0 hq
        · exact hp

/-! ### Pointwise effect of the gather/scatter sweeps -/

theorem stride_idxs_getD (ni nright base j t : ℕ) (ht : t < ni) :
    ((List.range ni).map (fun u => base + j + nright * u)).getD t 0 =
      base + j + nright * t :=
  range_map_getD ni t _ 0 ht

theorem stride_idxs_nodup (ni nright base j : ℕ) (hnr : 0 < nright) :
    ((List.range ni).map (fun u => base + j + nright * u)).Nodup := by
  refine List.Nodup.map ?_ (List.nodup_range ni)
  intro a b h
  have h' : base + j + nright * a = base + j + nright * b := h
  have : nright * a = nright * b := by omega
  exact Nat.eq_of_mul_eq_mul_left hnr this

theorem stride_idxs_mem (ni nright base j p : ℕ) :
    p ∈ (List.range ni).map (fun u => base + j + nright * u) ↔
      ∃ t, t < ni ∧ p = base + j + nright * t := by
  constructor
  · intro hp
    rcases List.mem_map.mp hp with ⟨t, ht, rfl⟩
    exact ⟨t, List.mem_range.mp ht, rfl⟩
  · rintro ⟨t, ht, rfl⟩
    exact List.mem_map.mpr ⟨t, List.mem_range.mpr ht, rfl⟩

theorem ekmInner_eval_notmem (Qi : List (List ℚ)) (ni nright base : ℕ) (f : ℕ → ℚ)
    (p : ℕ) (hp : ∀ j, j < nright → ∀ t, t < ni → p ≠ base + j + nright * t) :
    ekmInner Qi ni nright base f p = f p := by
  apply foldl_frame _ (fun j q => ∃ t, t < ni ∧ q = base + j + nright * t)
  · intro g j q hq
    apply scatterUpdate_notmem
    rw [stride_idxs_mem]
    exact hq
  · intro j hj
    rintro ⟨t, ht, rfl⟩
    exact hp j (List.mem_range.mp hj) t ht rfl

theorem ekmInner_eval_mem (Qi : List (List ℚ)) (ni nright base : ℕ) (f : ℕ → ℚ)
    (j t : ℕ) (hj : j < nright) (ht : t < ni) (hQi : Qi.length = ni)
    (hnr : 0 < nright) :
    ekmInner Qi ni nright base f (base + j + nright * t) =
      dot (Qi.getD t []) ((List.range ni).map (fun u => f (base + j + nright * u))) := by
  have hstep := foldl_eval
    (fun (g : ℕ → ℚ) (j : ℕ) =>
      scatterUpdate g ((List.range ni).map (fun u => base + j + nright * u))
        (matVec Qi (((List.range ni).map (fun u => base + j + nright * u)).map g)))
    (fun j q => ∃ u, u < ni ∧ q = base + j + nright * u)
    (by
      intro g j' q hq
      apply scatterUpdate_notmem
      rw [stride_idxs_mem]
      exact hq)
    (by
      intro g g' j' q hagree hq
      have hmaps : ((List.range ni).map (fun u => base + j' + nright * u)).map g =
          ((List.range ni).map (fun u => base + j' + nright * u)).map g' := by
        apply List.map_congr_left
        intro q' hq'
        exact hagree q' ((stride_idxs_mem ni nright base j' q').mp hq')
      show scatterUpdate g ((List.range ni).map (fun u => base + j' + nright * u))
          (matVec Qi (((List.range ni).map (fun u => base + j' + nright * u)).map g)) q =
        scatterUpdate g' ((List.range ni).map (fun u => base + j' + nright * u))
          (matVec Qi (((List.range ni).map (fun u => base + j' + nright * u)).map g')) q
      rw [hmaps]
      rcases hq with ⟨u, hu, rfl⟩
      have h1 := scatterUpdate_getD ((List.range ni).map (fun w => base + j' + nright * w))
        (matVec Qi (((List.range ni).map (fun w => base + j' + nright * w)).map g')) g
        (stride_idxs_nodup ni nright base j' hnr) u (by simpa using hu)
        (by simp [matVec, hQi, hu])
      have h2 := scatterUpdate_getD ((List.range ni).map (fun w => base + j' + nright * w))
        (matVec Qi (((List.range ni).map (fun w => base + j' + nright * w)).map g')) g'
        (stride_idxs_nodup ni nright base j' hnr) u (by simpa using hu)
        (by simp [matVec, hQi, hu])
      rw [stride_idxs_getD ni nright base j' u hu] at h1 h2
      rw [h1, h2])
    (List.range nright) f j (base + j + nright * t)
    (List.nodup_range nright) (List.mem_range.mpr hj)
    (by
      intro j₁ hj₁ j₂ hj₂ hne q hq1 hq2
      rcases hq1 with ⟨t₁, _, rfl⟩
      rcases hq2 with ⟨t₂, _, heq⟩
      apply hne
      have hmod : (base + j₁ + nright * t₁) % nright =
          (base + j₂ + nright * t₂) % nright := by
        rw [heq]
      have h₁ : (base + j₁ + nright * t₁) % nright = (base + j₁) % nright :=
        Nat.add_mul_mod_self_left (base + j₁) nright t₁
      have h₂ : (base + j₂ + nright * t₂) % nright = (base + j₂) % nright :=
        Nat.add_mul_mod_self_left (base + j₂) nright t₂
      rw [h₁, h₂] at hmod
      have hme : Nat.ModEq nright j₁ j₂ :=
        Nat.ModEq.add_left_cancel' base hmod
      have hj12 : j₁ % nright = j₂ % nright := hme
      rw [Nat.mod_eq_of_lt (List.mem_range.mp hj₁),
          Nat.mod_eq_of_lt (List.mem_range.mp hj₂)] at hj12
      exact hj12)
    ⟨t, ht, rfl⟩
  show (List.range nright).foldl
    (fun (g : ℕ → ℚ) (j : ℕ) =>
      scatterUpdate g ((List.range ni).map (fun u => base + j + nright * u))
        (matVec Qi (((List.range ni).map (fun u => base + j + nright * u)).map g)))
    f (base + j + nright * t) = _
  rw [hstep]
  show scatterUpdate f ((List.range ni).map (fun u => base + j + nright * u))
    (matVec Qi (((List.range ni).map (fun u => base + j + nright * u)).map f))
    (base + j + nright * t) = _
  have hsc := scatterUpdate_getD ((List.range ni).map (fun w => base + j + nright * w))
    (matVec Qi (((List.range ni).map (fun w => base + j + nright * w)).map f)) f
    (stride_idxs_nodup ni nright base j hnr) t (by simpa using ht)
    (by simp [matVec, hQi, ht])
  rw [stride_idxs_getD ni nright base j t ht] at hsc
  rw [hsc]
  have hmv : (matVec Qi (((List.range ni).map (fun u => base + j + nright * u)).map f)).getD
      t 0 = dot (Qi.getD t [])
        (((List.range ni).map (fun u => base + j + nright * u)).map f) := by
    rw [matVec]
    exact getD_map_lt Qi _ t (by omega) [] 0
  rw [hmv, List.map_map]
  rfl

theorem stride_lt_jump (ni nright j t : ℕ) (hj : j < nright) (ht : t < ni) :
    j + nright * t < ni * nright := by
  obtain ⟨ni', rfl⟩ : ∃ ni', ni = ni' + 1 := ⟨ni - 1, by omega⟩
  have h1 : nright * t ≤ nright * ni' := Nat.mul_le_mul_left nright (by omega)
  have h2 : (ni' + 1) * nright = nright * ni' + nright := by ring
  omega

theorem block_decompose (ni nright p k : ℕ) (hnr : 0 < nright)
    (h1 : k * (ni * nright) ≤ p) (h2 : p < (k + 1) * (ni * nright)) :
    ∃ j, j < nright ∧ ∃ t, t < ni ∧ p = k * (ni * nright) + j + nright * t := by
  refine ⟨(p - k * (ni * nright)) % nright, Nat.mod_lt _ hnr,
    (p - k * (ni * nright)) / nright, ?_, ?_⟩
  · rw [Nat.div_lt_iff_lt_mul hnr]
    have h3 : (k + 1) * (ni * nright) = k * (ni * nright) + ni * nright := by ring
    omega
  · have h4 := Nat.div_add_mod (p - k * (ni * nright)) nright
    omega

theorem ekmBlocks_eval_notmem (Qi : List (List ℚ)) (ni nright nleft : ℕ) (f : ℕ → ℚ)
    (p : ℕ) (hp : nleft * (ni * nright) ≤ p) :
    ekmBlocks Qi ni nright nleft f p = f p := by
  apply foldl_frame _
    (fun k q => k * (ni * nright) ≤ q ∧ q < (k + 1) * (ni * nright))
  · intro g k q hq
    apply ekmInner_eval_notmem
    intro j hj t ht heq
    apply hq
    constructor
    · omega
    · have h5 := stride_lt_jump ni nright j t hj ht
      have h3 : (k + 1) * (ni * nright) = k * (ni * nright) + ni * nright := by ring
      omega
  · intro k hk
    rintro ⟨hq1, hq2⟩
    have hkk : k + 1 ≤ nleft := List.mem_range.mp hk
    have : (k + 1) * (ni * nright) ≤ nleft * (ni * nright) :=
      Nat.mul_le_mul_right _ hkk
    omega

theorem ekmBlocks_eval_mem (Qi : List (List ℚ)) (ni nright nleft : ℕ) (f : ℕ → ℚ)
    (k j t : ℕ) (hk : k < nleft) (hj : j < nright) (ht : t < ni)
    (hQi : Qi.length = ni) (hnr : 0 < nright) :
    ekmBlocks Qi ni nright nleft f (k * (ni * nright) + j + nright * t) =
      dot (Qi.getD t [])
        ((List.range ni).map (fun u => f (k * (ni * nright) + j + nright * u))) := by
  have hframe : ∀ (g : ℕ → ℚ) (k' : ℕ) (q : ℕ),
      ¬(k' * (ni * nright) ≤ q ∧ q < (k' + 1) * (ni * nright)) →
      ekmInner Qi ni nright (k' * (ni * nright)) g q = g q := by
    intro g k' q hq
    apply ekmInner_eval_notmem
    intro j' hj' t' ht' heq
    apply hq
    constructor
    · omega
    · have h5 := stride_lt_jump ni nright j' t' hj' ht'
      have h3 : (k' + 1) * (ni * nright) = k' * (ni * nright) + ni * nright := by ring
      omega
  have hstep := foldl_eval
    (fun (g : ℕ → ℚ) (k : ℕ) => ekmInner Qi ni nright (k * (ni * nright)) g)
    (fun k q => k * (ni * nright) ≤ q ∧ q < (k + 1) * (ni * nright))
    hframe
    (by
      intro g g' k' q hagree hq
      rcases block_decompose ni nright q k' hnr hq.1 hq.2 with ⟨j', hj', t', ht', rfl⟩
      show ekmInner Qi ni nright (k' * (ni * nright)) g
          (k' * (ni * nright) + j' + nright * t') =
        ekmInner Qi ni nright (k' * (ni * nright)) g'
          (k' * (ni * nright) + j' + nright * t')
      rw [ekmInner_eval_mem Qi ni nright _ g j' t' hj' ht' hQi hnr,
          ekmInner_eval_mem Qi ni nright _ g' j' t' hj' ht' hQi hnr]
      apply congrArg
      apply List.map_congr_left
      intro u hu
      apply hagree
      constructor
      · omega
      · have h5 := stride_lt_jump ni nright j' u hj' (List.mem_range.mp hu)
        have h3 : (k' + 1) * (ni * nright) = k' * (ni * nright) + ni * nright := by ring
        omega)
    (List.range nleft) f k (k * (ni * nright) + j + nright * t)
    (List.nodup_range nleft) (List.mem_range.mpr hk)
    (by
      intro k₁ _ k₂ _ hne q hq1 hq2
      rcases Nat.lt_or_ge k₁ k₂ with hlt | hge
      · have : (k₁ + 1) * (ni * nright) ≤ k₂ * (ni * nright) :=
          Nat.mul_le_mul_right _ (by omega)
        omega
      · have hlt2 : k₂ < k₁ := by
          rcases Nat.lt_or_ge k₂ k₁ with h | h
          · exact h
          · exact absurd (Nat.le_antisymm hge h) (Ne.symm hne)
        have : (k₂ + 1) * (ni * nright) ≤ k₁ * (ni * nright) :=
          Nat.mul_le_mul_right _ (by omega)
        omega)
    (by
      constructor
      · omega
      · have h5 := stride_lt_jump ni nright j t hj ht
        have h3 : (k + 1) * (ni * nright) = k * (ni * nright) + ni * nright := by ring
        omega)
  show (List.range nleft).foldl
    (fun (g : ℕ → ℚ) (k : ℕ) => ekmInner Qi ni nright (k * (ni * nright)) g) f
    (k * (ni * nright) + j + nright * t) = _
  rw [hstep]
  show ekmInner Qi ni nright (k * (ni * nright)) f
    (k * (ni * nright) + j + nright * t) = _
  exact ekmInner_eval_mem Qi ni nright _ f j t hj ht hQi hnr

theorem sum_range_mul (a b : ℕ) (F : ℕ → ℚ) :
    ((List.range (a * b)).map F).sum =
      ((List.range a).map (fun o =>
        ((List.range b).map (fun u => F (o * b + u))).sum)).sum := by
  induction a with
  | zero => simp
  | succ a ih =>
      have hra : a * b + b = (a + 1) * b := by ring
      rw [List.range_succ, List.map_append, List.sum_append, ← hra, List.range_add,
          List.map_append, List.sum_append, ih]
      simp only [List.map_map, List.map_cons, List.map_nil, List.sum_cons,
        List.sum_nil, Function.comp]
      congr 1
      rw [add_zero]
      apply congrArg List.sum
      apply List.map_congr_left
      intro u _
      rfl

theorem list_prod_pos_of_mem (l : List ℕ) (h : ∀ x ∈ l, 0 < x) : 0 < l.prod := by
  induction l with
  | nil => simp
  | cons x l ih =>
      rw [List.prod_cons]
      exact Nat.mul_pos (h x (by simp)) (ih (fun y hy => h y (by simp [hy])))

theorem take_succ_prod (n : List ℕ) (c : ℕ) (hc : c < n.length) :
    (n.take (c + 1)).prod = (n.take c).prod * n.getD c 0 := by
  have h1 : n.take (c + 1) = n.take c ++ [n.getD c 0] := by
    rw [List.take_succ, List.getElem?_eq_getElem hc, List.getD_eq_getElem n 0 hc]
    rfl
  rw [h1, List.prod_append, List.prod_cons, List.prod_nil, mul_one]

theorem drop_cons_prod (n : List ℕ) (c : ℕ) (hc : c < n.length) :
    (n.drop c).prod = n.getD c 0 * (n.drop (c + 1)).prod := by
  rw [List.drop_eq_getElem_cons hc, List.prod_cons, List.getD_eq_getElem n 0 hc]

/-- The dimension sweep applies, block-wise, the Kronecker product of the
already-processed matrices: after the counter reaches `c`, positions inside
each residual block of size `(n.drop c).prod` hold the prefix transform
`kron (Q.take c) ⊗ I` of the original buffer. -/
theorem ekmLoop_sem (Q : List (List (List ℚ))) (n : List ℕ)
    (hn : n = Q.map (fun M => M.length))
    (hsq : ∀ M ∈ Q, ∀ row ∈ M, row.length = M.length)
    (hpos : ∀ M ∈ Q, M ≠ []) :
    ∀ (c : ℕ), c ≤ Q.length → ∀ (nleft nright : ℕ),
      (c = 0 ∨ (nleft = (n.take (c - 1)).prod ∧ nright = (n.drop c).prod)) →
      ∀ (g : ℕ → ℚ) (p : ℕ), p < n.prod →
      ekmLoop Q n c nleft nright g p =
        ((List.range (n.take c).prod).map (fun o =>
          ((kronMatList (Q.take c)).getD (p / (n.drop c).prod) []).getD o 0 *
            g (o * (n.drop c).prod + p % (n.drop c).prod))).sum := by
  have hlen : n.length = Q.length := by rw [hn]; simp
  have hallpos : ∀ x ∈ n, 0 < x := by
    rw [hn]
    intro x hx
    rcases List.mem_map.mp hx with ⟨M, hM, rfl⟩
    exact List.length_pos.mpr (hpos M hM)
  intro c
  induction c with
  | zero =>
      intro _ nleft nright _ g p hp
      show g p = _
      have h1 : p / n.prod = 0 := Nat.div_eq_of_lt hp
      have h2 : p % n.prod = p := Nat.mod_eq_of_lt hp
      simp only [List.take_zero, List.drop_zero, List.prod_nil]
      rw [show List.range 1 = [0] from rfl]
      simp [kronMatList, h1, h2]
  | succ c ih =>
      intro hc1 nleft nright hargs g p hp
      have hcQ : c < Q.length := by omega
      have hcn : c < n.length := by omega
      rcases hargs with h0 | ⟨hnl, hnr⟩
      · exact absurd h0 (Nat.succ_ne_zero c)
      have hnl' : nleft = (n.take c).prod := by simpa using hnl
      have hQimem : Q.getD c [] ∈ Q := by
        rw [List.getD_eq_getElem Q [] hcQ]
        exact List.getElem_mem hcQ
      have hQilen : (Q.getD c []).length = n.getD c 0 := by
        rw [hn]
        exact (getD_map_lt Q (fun M => M.length) c hcQ [] 0).symm
      have hniPos : 0 < n.getD c 0 := by
        rw [← hQilen]
        exact List.length_pos.mpr (hpos _ hQimem)
      have hnrPos : 0 < nright := by
        rw [hnr]
        exact list_prod_pos_of_mem _ (fun x hx => hallpos x (List.mem_of_mem_drop hx))
      have hPc : (n.drop c).prod = n.getD c 0 * nright := by
        rw [hnr]
        exact drop_cons_prod n c hcn
      have hPcPos : 0 < (n.drop c).prod := by
        rw [hPc]
        exact Nat.mul_pos hniPos hnrPos
      have hTc1 : (n.take (c + 1)).prod = (n.take c).prod * n.getD c 0 :=
        take_succ_prod n c hcn
      have hgnsplit : n.prod = (n.take c).prod * (n.drop c).prod := by
        conv_lhs => rw [← List.take_append_drop c n]
        rw [List.prod_append]
      have hxlt : p / (n.drop c).prod < (n.take c).prod := by
        rw [Nat.div_lt_iff_lt_mul hPcPos]
        rw [hgnsplit] at hp
        calc p < (n.take c).prod * (n.drop c).prod := hp
        _ = (n.take c).prod * (n.drop c).prod := rfl
      -- the recursive call's bookkeeping arguments are again well-formed
      have hargs' : c = 0 ∨
          ((nleft / (if c = 0 then n.getLastD 0 else n.getD (c - 1) 0)) =
            (n.take (c - 1)).prod ∧
           nright * n.getD c 0 = (n.drop c).prod) := by
        by_cases hc0 : c = 0
        · exact Or.inl hc0
        · refine Or.inr ⟨?_, by rw [hPc]; ring⟩
          rw [if_neg hc0]
          have hc1n : c - 1 < n.length := by omega
          have := take_succ_prod n (c - 1) hc1n
          rw [show c - 1 + 1 = c by omega] at this
          rw [hnl', this]
          exact Nat.mul_div_cancel _ (hallpos _ (by
            rw [List.getD_eq_getElem n 0 hc1n]
            exact List.getElem_mem hc1n))
      -- one unfolding of the loop
      show ekmLoop Q n c
        (nleft / (if c = 0 then n.getLastD 0 else n.getD (c - 1) 0))
        (nright * n.getD c 0)
        (ekmBlocks (Q.getD c []) (n.getD c 0) nright nleft g) p = _
      rw [ih (by omega) _ _ hargs'
        (ekmBlocks (Q.getD c []) (n.getD c 0) nright nleft g) p hp]
      -- abbreviations for the index decomposition of p
      have hj : p % (n.drop c).prod % nright = p % nright :=
        Nat.mod_mod_of_dvd p ⟨n.getD c 0, by rw [hPc]; ring⟩
      have hjlt : p % nright < nright := Nat.mod_lt _ hnrPos
      have htlt : p % (n.drop c).prod / nright < n.getD c 0 := by
        rw [Nat.div_lt_iff_lt_mul hnrPos]
        have := Nat.mod_lt p hPcPos
        calc p % (n.drop c).prod < (n.drop c).prod := this
        _ = n.getD c 0 * nright := hPc
      have hrdecomp : p % (n.drop c).prod =
          p % nright + nright * (p % (n.drop c).prod / nright) := by
        conv_lhs => rw [← Nat.div_add_mod (p % (n.drop c).prod) nright]
        rw [hj]
        ring
      -- evaluate the block sweep at each summand position
      have hblock : ∀ o, o < (n.take c).prod →
          ekmBlocks (Q.getD c []) (n.getD c 0) nright nleft g
            (o * (n.drop c).prod + p % (n.drop c).prod) =
          dot ((Q.getD c []).getD (p % (n.drop c).prod / nright) [])
            ((List.range (n.getD c 0)).map (fun u =>
              g (o * (n.getD c 0 * nright) + p % nright + nright * u))) := by
        intro o ho
        have hpose : o * (n.drop c).prod + p % (n.drop c).prod =
            o * (n.getD c 0 * nright) + p % nright +
              nright * (p % (n.drop c).prod / nright) := by
          rw [hPc] at hrdecomp ⊢
          omega
        rw [hpose]
        have := ekmBlocks_eval_mem (Q.getD c []) (n.getD c 0) nright nleft g
          o (p % nright) (p % (n.drop c).prod / nright)
          (hnl' ▸ ho) hjlt htlt hQilen hnrPos
        rw [this]
      -- shapes of the prefix Kronecker product
      have hsqs : ∀ M ∈ Q.take c, ∀ row ∈ M, row.length = M.length :=
        fun M hM => hsq M (List.mem_of_mem_take hM)
      have hshape := kronMatList_shape (Q.take c) hsqs
      have hmapTake : (Q.take c).map (fun M => M.length) = n.take c := by
        rw [hn, List.map_take]
      have hAlen : (kronMatList (Q.take c)).length = (n.take c).prod := by
        rw [hshape.1, hmapTake]
      have hArow : ∀ row ∈ kronMatList (Q.take c), row.length = (n.take c).prod := by
        intro row hrow
        rw [hshape.2 row hrow, hmapTake]
      have hxA : p / (n.drop c).prod < (kronMatList (Q.take c)).length := by
        rw [hAlen]
        exact hxlt
      have hAxlen : ((kronMatList (Q.take c)).getD (p / (n.drop c).prod) []).length =
          (n.take c).prod := by
        apply hArow
        rw [List.getD_eq_getElem _ [] hxA]
        exact List.getElem_mem hxA
      have hQirowlen : ((Q.getD c []).getD (p % (n.drop c).prod / nright) []).length =
          n.getD c 0 := by
        have hmem : (Q.getD c []).getD (p % (n.drop c).prod / nright) [] ∈
            Q.getD c [] := by
          rw [List.getD_eq_getElem (Q.getD c []) []
            (lt_of_lt_of_eq htlt hQilen.symm)]
          exact List.getElem_mem _
        rw [hsq _ hQimem _ hmem, hQilen]
      -- expand each left summand into an inner sum over the new dimension
      have hL : ∀ o ∈ List.range (n.take c).prod,
          ((kronMatList (Q.take c)).getD (p / (n.drop c).prod) []).getD o 0 *
            ekmBlocks (Q.getD c []) (n.getD c 0) nright nleft g
              (o * (n.drop c).prod + p % (n.drop c).prod) =
          ((List.range (n.getD c 0)).map (fun u =>
            ((kronMatList (Q.take c)).getD (p / (n.drop c).prod) []).getD o 0 *
              (((Q.getD c []).getD (p % (n.drop c).prod / nright) []).getD u 0 *
                g (o * (n.getD c 0 * nright) + p % nright + nright * u)))).sum := by
        intro o ho
        rw [hblock o (List.mem_range.mp ho)]
        rw [dot_eq_sum_getD]
        rw [hQirowlen, List.length_map, List.length_range, Nat.min_self]
        rw [← List.sum_map_mul_left]
        apply congrArg List.sum
        apply List.map_congr_left
        intro u hu
        rw [range_map_getD _ u _ 0 (List.mem_range.mp hu)]
      rw [congrArg List.sum (List.map_congr_left hL)]
      -- reshape the right-hand sum over the combined index
      have hpdiv : p / nright =
          (p / (n.drop c).prod) * n.getD c 0 + p % (n.drop c).prod / nright := by
        set x := p / (n.drop c).prod with hxdef
        set r := p % (n.drop c).prod with hrdef
        have h1 : p = (n.drop c).prod * x + r := (Nat.div_add_mod p _).symm
        have h2 : p = r + x * n.getD c 0 * nright := by
          rw [h1, hPc]
          ring
        rw [h2, Nat.add_mul_div_right r (x * n.getD c 0) hnrPos]
        omega
      have hB : kronMatList (Q.take (c + 1)) =
          kronMat (kronMatList (Q.take c)) (Q.getD c []) := by
        have htake : Q.take (c + 1) = Q.take c ++ [Q.getD c []] := by
          rw [List.take_succ, List.getElem?_eq_getElem hcQ, List.getD_eq_getElem Q [] hcQ]
          rfl
        rw [htake, kronMatList_append_singleton]
      have hBrow : (kronMatList (Q.take (c + 1))).getD (p / nright) [] =
          kronVec ((kronMatList (Q.take c)).getD (p / (n.drop c).prod) [])
            ((Q.getD c []).getD (p % (n.drop c).prod / nright) []) := by
        rw [hB, hpdiv]
        have hk := kronMat_getD_row (kronMatList (Q.take c)) (Q.getD c [])
          (p / (n.drop c).prod) (p % (n.drop c).prod / nright)
          hxA (lt_of_lt_of_eq htlt hQilen.symm)
        rw [hQilen] at hk
        exact hk
      have hmodp : p % (n.drop (c + 1)).prod = p % nright := by rw [← hnr]
      have hdivp : p / (n.drop (c + 1)).prod = p / nright := by rw [← hnr]
      rw [hTc1]
      rw [show (fun O => ((kronMatList (Q.take (c + 1))).getD
          (p / (n.drop (c + 1)).prod) []).getD O 0 *
            g (O * (n.drop (c + 1)).prod + p % (n.drop (c + 1)).prod)) =
        (fun O => ((kronMatList (Q.take (c + 1))).getD (p / nright) []).getD O 0 *
            g (O * nright + p % nright)) from by
          funext O
          rw [hmodp, hdivp, ← hnr]]
      rw [sum_range_mul ((n.take c).prod) (n.getD c 0)]
      apply congrArg List.sum
      apply List.map_congr_left
      intro o ho
      apply congrArg List.sum
      apply List.map_congr_left
      intro u hu
      rw [hBrow]
      have hkv := kronVec_getD ((kronMatList (Q.take c)).getD (p / (n.drop c).prod) [])
        ((Q.getD c []).getD (p % (n.drop c).prod / nright) []) o u
        (by rw [hAxlen]; exact List.mem_range.mp ho)
        (by rw [hQirowlen]; exact List.mem_range.mp hu)
      rw [hQirowlen] at hkv
      rw [hkv]
      rw [show (o * n.getD c 0 + u) * nright + p % nright =
        o * (n.getD c 0 * nright) + p % nright + nright * u by ring]
      ring
/-- C2: for every nonempty list of (nonempty) square matrices and every
buffer whose length is the product of their row counts, the in-place mode
sweep of `efficient_kron_mult` computes exactly the product of the explicit
Kronecker-product matrix `Q[0] ⊗ … ⊗ Q[N-1]` with the buffer. -/
theorem efficient_kron_mult_spec (Q : List (List (List ℚ))) (Uc : List ℚ)
    (_hne : Q ≠ []) (hsq : ∀ M ∈ Q, ∀ row ∈ M, row.length = M.length)
    (hpos : ∀ M ∈ Q, M ≠ [])
    (hlen : Uc.length = (Q.map (fun M => M.length)).prod) :
    efficient_kron_mult Q Uc = matVec (kronMatList Q) Uc := by
  have hlenN : (Q.map (fun M => M.length)).length = Q.length := by simp
  have hshape := kronMatList_shape Q hsq
  have hdropN : (Q.map (fun M => M.length)).drop Q.length = [] := by
    rw [← hlenN]
    exact List.drop_length _
  have htakeN : (Q.map (fun M => M.length)).take Q.length =
      Q.map (fun M => M.length) := by
    rw [← hlenN]
    exact List.take_length _
  have htakeQ : Q.take Q.length = Q := List.take_length _
  have hsem := ekmLoop_sem Q (Q.map (fun M => M.length)) rfl hsq hpos Q.length
    (le_refl _) (((Q.map (fun M => M.length)).take (Q.length - 1)).prod) 1
    (Or.inr ⟨rfl, by rw [hdropN]; rfl⟩) (fun pt => Uc.getD pt 0)
  show (List.range Uc.length).map
      (ekmLoop Q (Q.map (fun M => M.length)) Q.length
        (((Q.map (fun M => M.length)).take (Q.length - 1)).prod) 1
        (fun pt => Uc.getD pt 0)) = matVec (kronMatList Q) Uc
  apply List.ext_getElem
  · simp only [List.length_map, List.length_range, matVec]
    rw [hshape.1, hlen]
  · intro p h1 h2
    rw [List.getElem_map, List.getElem_range]
    have hplt : p < (Q.map (fun M => M.length)).prod := by
      have : p < Uc.length := by simpa using h1
      omega
    rw [hsem p hplt, hdropN, htakeN, htakeQ]
    simp only [List.prod_nil, Nat.div_one, Nat.mod_one, Nat.mul_one, Nat.add_zero]
    have hplt2 : p < (kronMatList Q).length := by
      rw [hshape.1]; exact hplt
    have hRHS : (matVec (kronMatList Q) Uc)[p] =
        dot ((kronMatList Q).getD p []) Uc := by
      simp only [matVec, List.getElem_map]
      rw [List.getD_eq_getElem _ _ hplt2]
    rw [hRHS, dot_eq_sum_getD]
    have hrowlen : ((kronMatList Q).getD p []).length = (Q.map (fun M => M.length)).prod := by
      apply hshape.2
      rw [List.getD_eq_getElem _ _ hplt2]
      exact List.getElem_mem _
    rw [hrowlen, hlen, Nat.min_self]

/-- Witness for C2: a concrete two-dimensional transform (2-by-2 matrices,
buffer of length 4) agrees with the explicit Kronecker product. -/
theorem efficient_kron_mult_spec_witness :
    efficient_kron_mult [[[1, 2], [3, 4]], [[0, 1], [1, 0]]] [1, 2, 3, 4] =
      matVec (kronMatList [[[1, 2], [3, 4]], [[0, 1], [1, 0]]]) [1, 2, 3, 4] :=
  efficient_kron_mult_spec [[[1, 2], [3, 4]], [[0, 1], [1, 0]]] [1, 2, 3, 4]
    (by simp) (by decide) (by decide) (by decide)

end EffectiveQuadratures
